import Mathlib

/-!
# Verification of the wsbps binary codec (src/data.ts, src/packets.ts, src/socket.ts)

This file is a shallow embedding of the wsbps binary wire-format codec.

Modelling conventions, chosen to mirror the JavaScript source exactly:

* JavaScript numbers flowing through the integer codecs are integral, so they
  are modelled as `Int`.  The 32-bit operators `>>`, `<<`, `|`, `&` used by the
  `VarInt` codec are modelled by `jsShr`, `jsShl`, `jsOr`, `jsAnd`, each of
  which first reduces its operand modulo `2^32` into the signed 32-bit range,
  exactly as ECMAScript's `ToInt32` does (shift counts are taken mod 32, and
  `>>` sign-extends, i.e. it is floor division of the signed value).
* Floating-point numbers are modelled by their IEEE-754 binary64 bit pattern
  (`JSValue.float bits`).  `DataView.setFloat64` writes the eight big-endian
  bytes of that pattern; `DataView.getFloat32` reads four bytes and widens the
  binary32 value to binary64 (`float32BitsToFloat64Bits`), which is exact.
* An `ArrayBuffer`/`DataView` is modelled as the unbounded byte map
  `Mem = Nat → Nat`; `getUint8` reduces mod 256 (a real `DataView` can only
  ever hold byte values).  Out-of-range accesses, which throw in JavaScript,
  are not modelled: no claim below exercises one, except where explicitly
  demonstrated via the bytes actually written.
* The `DataViewTracker` cursor is the `Nat` offset threaded through every
  encode/decode function; `t.one()` and `t.many(n)` are the `off + 1` and
  `off + n` advances, `reset` produces offset `0`.
* The `while` loops of `VarInt.size` and `VarInt.encode` are written with a
  structural fuel of 10.  For every integral input the loop body runs at most
  6 times (after one `>>` the value is a signed 32-bit integer, and a signed
  32-bit integer reaches a value below 0x80 after at most 4 further shifts),
  so fuel 10 never alters behaviour; the lemmas `varIntSize_loop_eq` and
  `varIntEncodeList_loop_eq` prove that the fueled functions satisfy the
  loops' defining recurrences for arbitrary inputs.
-/

/-! ## ECMAScript 32-bit integer arithmetic -/

/-- ECMAScript `ToUint32`: the argument reduced into `[0, 2^32)`.
`Int.emod` with a positive modulus is non-negative, matching the spec's
mathematical modulo. -/
def toUint32 (v : Int) : Nat := (v % 4294967296).toNat

/-- Reinterpret an unsigned 32-bit value as a signed (two's-complement) one. -/
def ofUint32 (w : Nat) : Int :=
  if w < 2147483648 then (w : Int) else (w : Int) - 4294967296

/-- ECMAScript `ToInt32`. -/
def toInt32 (v : Int) : Int := ofUint32 (toUint32 v)

/-- JavaScript `a | b` (32-bit bitwise or). -/
def jsOr (a b : Int) : Int := ofUint32 (toUint32 a ||| toUint32 b)

/-- JavaScript `a & b` (32-bit bitwise and). -/
def jsAnd (a b : Int) : Int := ofUint32 (toUint32 a &&& toUint32 b)

/-- JavaScript `a >> n` (sign-extending shift; floor division of the signed
32-bit value by `2^(n mod 32)`; `Int./` is Euclidean division, which for a
positive divisor is floor division). -/
def jsShr (a : Int) (n : Nat) : Int := toInt32 a / (2 ^ (n % 32) : Nat)

/-- JavaScript `a << n` (shift of the 32-bit pattern, reinterpreted signed). -/
def jsShl (a : Int) (n : Nat) : Int := ofUint32 (toUint32 a <<< (n % 32) % 4294967296)

/-- ECMAScript `ToUint8`, the conversion applied by `DataView.setUint8`. -/
def toUint8 (v : Int) : Nat := (v % 256).toNat

/-! ## The ArrayBuffer / DataView / DataViewTracker model -/

/-- The bytes of an `ArrayBuffer`, indexed by absolute offset. -/
def Mem : Type := Nat → Nat

/-- A freshly allocated `ArrayBuffer` is zero-filled. -/
def zeroMem : Mem := fun _ => 0

/-- A `DataView` over a concrete list of bytes (as delivered by the socket). -/
def memOfBytes (bs : List Nat) : Mem := fun i => bs.getD i 0

/-- `DataView.getUint8` at absolute offset `i`. -/
def getUint8 (m : Mem) (i : Nat) : Nat := m i % 256

/-- `DataView.setUint8` at absolute offset `i`. -/
def setUint8 (m : Mem) (i : Nat) (v : Int) : Mem :=
  fun j => if j = i then toUint8 v else m j

/-- Write a list of byte values at consecutive offsets. -/
def writeBytes : Mem → Nat → List Nat → Mem
  | m, _, [] => m
  | m, off, b :: bs => writeBytes (fun j => if j = off then b % 256 else m j) (off + 1) bs

/-- Read `n` bytes starting at `off`. -/
def readBytes (m : Mem) : Nat → Nat → List Nat
  | _, 0 => []
  | off, n + 1 => getUint8 m off :: readBytes m (off + 1) n

/-! ## The VarInt codec (src/data.ts lines 143-174) -/

/-- The loop of `VarInt.size`, with structural fuel (see the header comment). -/
def varIntSizeF : Nat → Int → Nat
  | 0, _ => 1
  | fuel + 1, v => if 128 ≤ v then varIntSizeF fuel (jsShr v 7) + 1 else 1

/-- `VarInt.size`: `while (value >= 0x80) { value >>= 7; size++ }; return size + 1`. -/
def varIntSize (v : Int) : Nat := varIntSizeF 10 v

/-- The byte sequence emitted by the loop of `VarInt.encode`, with fuel. -/
def varIntEncodeF : Nat → Int → List Nat
  | 0, v => [toUint8 v]
  | fuel + 1, v =>
    if 128 ≤ v then toUint8 (jsOr v 128) :: varIntEncodeF fuel (jsShr v 7)
    else [toUint8 v]

/-- The byte sequence emitted by `VarInt.encode`:
`while (v >= 0x80) { emit(v | 0x80); v >>= 7 }; emit(v)` (each emitted value
passes through `setUint8`, hence through `ToUint8`). -/
def varIntEncodeList (v : Int) : List Nat := varIntEncodeF 10 v

/-- `VarInt.encode` acting on the DataView and cursor, with fuel. -/
def varIntEncodeStF : Nat → Mem → Nat → Int → Mem × Nat
  | 0, m, off, v => (setUint8 m off v, off + 1)
  | fuel + 1, m, off, v =>
    if 128 ≤ v then
      varIntEncodeStF fuel (setUint8 m off (jsOr v 128)) (off + 1) (jsShr v 7)
    else (setUint8 m off v, off + 1)

/-- `VarInt.encode(d, t, v)`: returns the updated bytes and cursor. -/
def varIntEncodeSt (m : Mem) (off : Nat) (v : Int) : Mem × Nat :=
  varIntEncodeStF 10 m off v

/-- The `for (let i = 0; i < 10; i++)` loop of `VarInt.decode`, written as a
countdown: the iteration with counter `i` of the source runs here with
`n = 10 - i` remaining iterations (so the source's `i == 9` test is `n = 1`,
i.e. the inner binder is `0`). -/
def varIntDecodeGo (m : Mem) : Nat → Nat → Int → Nat → Int × Nat
  | off, 0, value, _ => (value, off)
  | off, n + 1, value, bitOffset =>
    let byte := getUint8 m off
    if byte < 128 then
      if n = 0 ∧ 1 < byte then (value, off + 1)
      else (jsOr value (jsShl (byte : Int) bitOffset), off + 1)
    else
      varIntDecodeGo m (off + 1) n
        (jsOr value (jsShl ((byte &&& 127 : Nat) : Int) bitOffset)) (bitOffset + 7)

/-- `VarInt.decode(d, t)`: returns the decoded value and the new cursor. -/
def varIntDecode (m : Mem) (off : Nat) : Int × Nat := varIntDecodeGo m off 10 0 0

/-! ## IEEE-754 bit-pattern model for the two float codecs -/

/-- The big-endian bytes of the low `8*w` bits of `x` (the byte order a
`DataView` uses when no little-endian flag is passed, as in this source). -/
def beBytes : Nat → Nat → List Nat
  | 0, _ => []
  | w + 1, x => x / 2 ^ (8 * w) % 256 :: beBytes w x

/-- Read `w` bytes big-endian starting at `off`. -/
def beRead (m : Mem) : Nat → Nat → Nat
  | _, 0 => 0
  | off, w + 1 => getUint8 m off * 2 ^ (8 * w) + beRead m (off + 1) w

/-- Exact widening of an IEEE-754 binary32 bit pattern to the binary64 bit
pattern of the same real value, as performed by `DataView.getFloat32` when its
result becomes a JavaScript number.  Every binary32 value (normal, subnormal,
zero, infinity) is exactly representable in binary64; NaN payloads are carried
into the high mantissa bits. -/
def float32BitsToFloat64Bits (b : Nat) : Nat :=
  let b32 := b % 4294967296
  let s := b32 / 2147483648
  let e := b32 / 8388608 % 256
  let mfrac := b32 % 8388608
  if e = 255 then s * 2 ^ 63 + 2047 * 2 ^ 52 + mfrac * 2 ^ 29
  else if e = 0 then
    if mfrac = 0 then s * 2 ^ 63
    else
      let l := Nat.log2 mfrac
      s * 2 ^ 63 + (l + 874) * 2 ^ 52 + (mfrac - 2 ^ l) * 2 ^ (52 - l)
  else s * 2 ^ 63 + (e + 896) * 2 ^ 52 + mfrac * 2 ^ 29

/-! ## JavaScript values and the DataType interface (src/data.ts lines 52-77) -/

/-- The JavaScript values handled by the codec.  Integral numbers are carried
as `num`; float-valued numbers are carried as their binary64 bit pattern
(`float`); strings are their lists of UTF-16 code units; `Uint8Array`s are
their byte lists; objects are their property lists in insertion order. -/
inductive JSValue where
  | undef
  | num (n : Int)
  | float (bits : Nat)
  | bool (b : Bool)
  | str (chars : List Nat)
  | byteArr (bs : List Nat)
  | arr (elems : List JSValue)
  | obj (fields : List (String × JSValue))

/-- Numeric projection: the codecs below feed their argument to a `DataView`
setter, which applies `ToNumber`; the claims only ever supply numbers, and the
other cases collapse to `0` (the value `ToUint8`/`ToInt32` produce for the
`NaN` that `ToNumber` yields on e.g. `undefined`). -/
def jsNumOf : JSValue → Int
  | .num n => n
  | _ => 0

/-- The binary64 bit pattern of a float-valued number (see `JSValue.float`). -/
def jsFloatBitsOf : JSValue → Nat
  | .float bits => bits
  | _ => 0

/-- String projection (list of UTF-16 code units, as `charCodeAt` reads). -/
def jsStrOf : JSValue → List Nat
  | .str chars => chars
  | _ => []

/-- `Uint8Array` projection. -/
def jsBytesOf : JSValue → List Nat
  | .byteArr bs => bs
  | _ => []

/-- Object projection. -/
def jsObjOf : JSValue → List (String × JSValue)
  | .obj fields => fields
  | _ => []

/-- JavaScript property read on an object's property list (properties of an
object are unique, so first match is the match); a missing property reads as
`undefined`. -/
def lookupVal : List (String × JSValue) → String → JSValue
  | [], _ => .undef
  | (k2, v) :: rest, k => if k2 = k then v else lookupVal rest k

/-- `value[key]` for a struct value. -/
def objGet (v : JSValue) (k : String) : JSValue := lookupVal (jsObjOf v) k

/-- JavaScript property assignment `out[key] = v`: overwrite in place if the
property exists, otherwise append in insertion order. -/
def objSet (l : List (String × JSValue)) (k : String) (v : JSValue) :
    List (String × JSValue) :=
  if (l.map Prod.fst).contains k then l.map fun p => if p.1 = k then (k, v) else p
  else l ++ [(k, v)]

/-- `DataSize<N>`: either a fixed byte count or a function of the value
(spec section 9 names this tagged variant explicitly). -/
inductive DataSize where
  | fixed (n : Nat)
  | computed (f : JSValue → Nat)

/-- `DataType<N>`: the size rule plus encode/decode against a `DataView` and
cursor. -/
structure DType where
  size : DataSize
  encode : Mem → Nat → JSValue → Mem × Nat
  decode : Mem → Nat → JSValue × Nat

/-- The byte count `size` yields on a given value. -/
def DType.sizeOf (T : DType) (v : JSValue) : Nat :=
  match T.size with
  | .fixed n => n
  | .computed f => f v

/-! ## The primitive codecs (src/data.ts lines 80-140) -/

/-- `UInt8`. -/
def Data.UInt8 : DType where
  size := .fixed 1
  encode := fun m off v => (setUint8 m off (jsNumOf v), off + 1)
  decode := fun m off => (.num (getUint8 m off), off + 1)

/-- `Int8` (`setInt8` stores the same byte pattern as `setUint8`; `getInt8`
sign-extends the byte). -/
def Data.Int8 : DType where
  size := .fixed 1
  encode := fun m off v => (setUint8 m off (jsNumOf v), off + 1)
  decode := fun m off =>
    (.num (if getUint8 m off < 128 then (getUint8 m off : Int) else (getUint8 m off : Int) - 256),
      off + 1)

/-- The `ToUintW` conversion a `DataView` setter applies for width `w` bytes. -/
def toUintW (w : Nat) (v : Int) : Nat := (v % ((2 ^ (8 * w) : Nat) : Int)).toNat

/-- `UInt16` (big-endian, the `DataView` default used by this source). -/
def Data.UInt16 : DType where
  size := .fixed 2
  encode := fun m off v => (writeBytes m off (beBytes 2 (toUintW 2 (jsNumOf v))), off + 2)
  decode := fun m off => (.num (beRead m off 2), off + 2)

/-- `Int16`. -/
def Data.Int16 : DType where
  size := .fixed 2
  encode := fun m off v => (writeBytes m off (beBytes 2 (toUintW 2 (jsNumOf v))), off + 2)
  decode := fun m off =>
    (.num (if beRead m off 2 < 32768 then (beRead m off 2 : Int) else (beRead m off 2 : Int) - 65536),
      off + 2)

/-- `UInt32`. -/
def Data.UInt32 : DType where
  size := .fixed 4
  encode := fun m off v => (writeBytes m off (beBytes 4 (toUintW 4 (jsNumOf v))), off + 4)
  decode := fun m off => (.num (beRead m off 4), off + 4)

/-- `Int32`. -/
def Data.Int32 : DType where
  size := .fixed 4
  encode := fun m off v => (writeBytes m off (beBytes 4 (toUintW 4 (jsNumOf v))), off + 4)
  decode := fun m off =>
    (.num (if beRead m off 4 < 2147483648 then (beRead m off 4 : Int)
      else (beRead m off 4 : Int) - 4294967296), off + 4)

/-- `Float64`: `setFloat64(t.many(8), v)` / `getFloat64(t.many(8))`. -/
def Data.Float64 : DType where
  size := .fixed 8
  encode := fun m off v => (writeBytes m off (beBytes 8 (jsFloatBitsOf v)), off + 8)
  decode := fun m off => (.float (beRead m off 8), off + 8)

/-- `Float32`, exactly as written in src/data.ts lines 122-126: the declared
size is 4 and the decoder is `getFloat32(t.many(4))`, but the encoder is
`d.setFloat64(t.many(4), v)` — it writes the EIGHT bytes of the binary64
pattern while advancing the cursor by four. -/
def Data.Float32 : DType where
  size := .fixed 4
  encode := fun m off v => (writeBytes m off (beBytes 8 (jsFloatBitsOf v)), off + 4)
  decode := fun m off => (.float (float32BitsToFloat64Bits (beRead m off 4)), off + 4)

/-- `Bool`: encoded through `UInt8` as 1/0; decoded as `UInt8.decode == 1`. -/
def Data.Bool : DType where
  size := .fixed 1
  encode := fun m off v =>
    Data.UInt8.encode m off (.num (match v with | .bool true => 1 | _ => 0))
  decode := fun m off =>
    (.bool (decide (jsNumOf (Data.UInt8.decode m off).1 = 1)), (Data.UInt8.decode m off).2)

/-- `VarInt` as a `DataType`. -/
def Data.VarInt : DType where
  size := .computed fun v => varIntSize (jsNumOf v)
  encode := fun m off v => varIntEncodeSt m off (jsNumOf v)
  decode := fun m off => ((varIntDecode m off).1 |> JSValue.num, (varIntDecode m off).2)

/-- The `for .. of` loops of `ByteArray.encode` and `Str.encode`: one
`UInt8.encode` per element (for strings, `charCodeAt(i)`). -/
def writeSeq : Mem → Nat → List Nat → Mem × Nat
  | m, off, [] => (m, off)
  | m, off, c :: cs => writeSeq (setUint8 m off (c : Int)) (off + 1) cs

/-- `ByteArray.decode`: read a VarInt count, then view that many bytes
(`new Uint8Array(d.buffer, t.many(size), size)`).  A negative decoded count
would throw in JavaScript when constructing the `Uint8Array`; it is clamped
to `0` by `Int.toNat` here and never arises in any claim below. -/
def byteArrayDecode (m : Mem) (off : Nat) : List Nat × Nat :=
  let p := varIntDecode m off
  (readBytes m p.2 p.1.toNat, p.2 + p.1.toNat)

/-- `ByteArray` (src/data.ts lines 202-216). -/
def Data.ByteArray : DType where
  size := .computed fun v => varIntSize ((jsBytesOf v).length : Int) + (jsBytesOf v).length
  encode := fun m off v =>
    let p := varIntEncodeSt m off ((jsBytesOf v).length : Int)
    writeSeq p.1 p.2 (jsBytesOf v)
  decode := fun m off => ((byteArrayDecode m off).1 |> JSValue.byteArr, (byteArrayDecode m off).2)

/-- `Str` (src/data.ts lines 219-234): VarInt length prefix, then each
`charCodeAt` written through `setUint8` (hence truncated mod 256); decode is
`ByteArray.decode` followed by `String.fromCharCode`, so the decoded string's
code units are exactly the bytes read. -/
def Data.Str : DType where
  size := .computed fun v => varIntSize ((jsStrOf v).length : Int) + (jsStrOf v).length
  encode := fun m off v =>
    let p := varIntEncodeSt m off ((jsStrOf v).length : Int)
    writeSeq p.1 p.2 (jsStrOf v)
  decode := fun m off => ((byteArrayDecode m off).1 |> JSValue.str, (byteArrayDecode m off).2)

/-! ## Struct and packet definitions (src/packets.ts) -/

/-- Placeholder for the `undefined` obtained by looking up a key of the order
list that is missing from the layout; using it in JavaScript would throw a
`TypeError` at the first `type.size` access.  Every theorem below requires the
key order to draw from the layout's keys, so this placeholder is never
exercised; it only makes `lookupType` total. -/
def undefinedType : DType where
  size := .fixed 0
  encode := fun m off _ => (m, off)
  decode := fun _ off => (.undef, off)

/-- JavaScript property read on a layout object (keys unique, first match). -/
def lookupType : List (String × DType) → String → DType
  | [], _ => undefinedType
  | (k2, T) :: rest, k => if k2 = k then T else lookupType rest k

/-- `StructDefinition`: the compiled ordered field list. -/
structure StructDefinition where
  fields : List (String × DType)

/-- The `StructDefinition` constructor: `fields[i] = [keys[i], struct[keys[i]]]`. -/
def mkStructDefinition (struct : List (String × DType)) (keys : List String) :
    StructDefinition :=
  { fields := keys.map fun k => (k, lookupType struct k) }

/-- The loop of `computeSize`: add the fixed size or apply the size function
to `packet[key]`, over the fields in order. -/
def computeSizeGo : List (String × DType) → JSValue → Nat
  | [], _ => 0
  | (k, T) :: rest, v => T.sizeOf (objGet v k) + computeSizeGo rest v

/-- `StructDefinition.computeSize`. -/
def StructDefinition.computeSize (d : StructDefinition) (v : JSValue) : Nat :=
  computeSizeGo d.fields v

/-- The loop of `StructDefinition.encode`: each field's codec encodes
`struct[key]` at the shared cursor, in field order. -/
def structEncodeGo : List (String × DType) → Mem → Nat → JSValue → Mem × Nat
  | [], m, off, _ => (m, off)
  | (k, T) :: rest, m, off, v => structEncodeGo rest (T.encode m off (objGet v k)).1
      (T.encode m off (objGet v k)).2 v

/-- `StructDefinition.encode`. -/
def StructDefinition.encode (d : StructDefinition) (m : Mem) (off : Nat) (v : JSValue) :
    Mem × Nat :=
  structEncodeGo d.fields m off v

/-- The loop of `StructDefinition.decode`: `out[key] = type.decode(view, tracker)`
over the fields in order. -/
def structDecodeGo (m : Mem) : List (String × DType) → List (String × JSValue) → Nat →
    List (String × JSValue) × Nat
  | [], out, off => (out, off)
  | (k, T) :: rest, out, off =>
    structDecodeGo m rest (objSet out k (T.decode m off).1) (T.decode m off).2

/-- `StructDefinition.decode`. -/
def StructDefinition.decode (d : StructDefinition) (m : Mem) (off : Nat) : JSValue × Nat :=
  ((structDecodeGo m d.fields [] off).1 |> JSValue.obj, (structDecodeGo m d.fields [] off).2)

/-- `PacketDefinition`: a struct definition tagged with the packet id. -/
structure PacketDefinition extends StructDefinition where
  id : Int

/-- The `PacketDefinition` constructor. -/
def mkPacketDefinition (id : Int) (struct : List (String × DType)) (keys : List String) :
    PacketDefinition :=
  { toStructDefinition := mkStructDefinition struct keys, id := id }

/-- `PacketDefinition.create` (src/packets.ts lines 86-93): allocate
`VarIntSize(id) + computeSize(data)` zeroed bytes, write the id as a VarInt
then the body at the caller's write tracker, reset the tracker, and return the
buffer (its bytes listed here) together with the reset tracker offset. -/
def PacketDefinition.create (p : PacketDefinition) (writeTrackerOff : Nat) (data : JSValue) :
    List Nat × Nat :=
  let total := varIntSize p.id + computeSizeGo p.fields data
  let q := varIntEncodeSt zeroMem writeTrackerOff p.id
  let r := structEncodeGo p.fields q.1 q.2 data
  (readBytes r.1 0 total, 0)

/-! ## Definitions used only to state claims (spec-side formulations) -/

/-- Modelled from the spec (section 4.3 size rule): the number of right-shifts
by 7 bits — of the mathematical value — required to bring it below 0x80.
Written with a structural fuel equal to the value so that the kernel can
evaluate it; the fuel never runs out (each shift of a value of at least 0x80
decreases it by at least one), and `specVarIntShiftCount_rec` proves the
fuel-free recurrence. -/
def specVarIntShiftCountF : Nat → Nat → Nat
  | 0, _ => 0
  | f + 1, v => if v < 128 then 0 else specVarIntShiftCountF f (v / 128) + 1

/-- The spec's shift count (see `specVarIntShiftCountF`). -/
def specVarIntShiftCount (v : Nat) : Nat := specVarIntShiftCountF v v

/-- Modelled from the spec (section 4.3 encode rule): while the value is at
least 0x80 emit `(value AND 0x7f) OR 0x80` and right-shift by 7, then emit
the remaining value, all in exact integer arithmetic.  Fueled like
`specVarIntShiftCountF`; `specVarIntEncode_rec` proves the fuel-free
recurrence. -/
def specVarIntEncodeF : Nat → Nat → List Nat
  | 0, v => [v]
  | f + 1, v => if v < 128 then [v] else (v &&& 127 ||| 128) :: specVarIntEncodeF f (v / 128)

/-- The spec's encode loop (see `specVarIntEncodeF`). -/
def specVarIntEncode (v : Nat) : List Nat := specVarIntEncodeF v v

/-- The value `VarInt.decode` has accumulated after folding in `n`
continuation bytes starting at `off` (used to state what the decoder returns
when it gives up on the 10th byte). -/
def varIntAccum (m : Mem) : Nat → Nat → Int → Nat → Int
  | _, 0, value, _ => value
  | off, n + 1, value, bitOffset =>
    varIntAccum m (off + 1) n
      (jsOr value (jsShl ((getUint8 m off &&& 127 : Nat) : Int) bitOffset)) (bitOffset + 7)

/-- The field-by-field decode of an ordered field list: each field's codec
decodes at the running offset and the results are listed in field order
(used to state the order in which `StructDefinition.decode` reads). -/
def fieldsDecodeList (m : Mem) : List (String × DType) → Nat → List (String × JSValue) × Nat
  | [], off => ([], off)
  | (k, T) :: rest, off =>
    ((k, (T.decode m off).1) :: (fieldsDecodeList m rest (T.decode m off).2).1,
      (fieldsDecodeList m rest (T.decode m off).2).2)

/-- The bytes a codec writes for a value, read back from a fresh buffer. -/
def DType.encBytes (T : DType) (v : JSValue) : List Nat :=
  readBytes (T.encode zeroMem 0 v).1 0 (T.sizeOf v)

/-- The cursor/size discipline of spec section 4.1, together with
write-locality: encoding advances the cursor by exactly the declared size,
writes exactly its own bytes there, and those bytes do not depend on the
buffer contents or position.  Proved below for each codec of the library
except the faulty `Float32`. -/
def GoodType (T : DType) : Prop :=
  ∀ v : JSValue,
    (T.encBytes v).length = T.sizeOf v ∧
    (∀ b ∈ T.encBytes v, b < 256) ∧
    ∀ (m : Mem) (off : Nat), T.encode m off v = (writeBytes m off (T.encBytes v), off + T.sizeOf v)

/-- The concatenated per-field bytes of a struct value, in field order. -/
def structBytes (fields : List (String × DType)) (v : JSValue) : List Nat :=
  (fields.map fun ft => ft.2.encBytes (objGet v ft.1)).flatten

/-! Sanity checks of the embedding on the literal vectors of spec section 8. -/

example : varIntEncodeList 0 = [0] := rfl
example : varIntEncodeList 127 = [127] := rfl
example : varIntEncodeList 128 = [128, 1] := rfl
example : varIntEncodeList 300 = [172, 2] := rfl
example : varIntEncodeList 16384 = [128, 128, 1] := rfl
example : varIntDecode (memOfBytes [172, 2]) 0 = (300, 2) := rfl
example : varIntEncodeList 2147483648 = [128, 0] := rfl
example : varIntSize 2147483648 = 2 := rfl

/-! ## Arithmetic lemmas about the ECMAScript operators on in-range values -/

theorem toUint32_natCast (x : Nat) : toUint32 (x : Int) = x % 4294967296 := by
  have h : ((x : Int) % 4294967296) = ((x % 4294967296 : Nat) : Int) := by push_cast; ring
  rw [toUint32, h, Int.toNat_natCast]

theorem ofUint32_of_lt {w : Nat} (h : w < 2147483648) : ofUint32 w = (w : Int) := by
  simp [ofUint32, h]

theorem toInt32_natCast_small {x : Nat} (h : x < 2147483648) :
    toInt32 (x : Int) = (x : Int) := by
  rw [toInt32, toUint32_natCast, Nat.mod_eq_of_lt (lt_trans h (by norm_num)),
    ofUint32_of_lt h]

theorem or_lt_half {x y : Nat} (hx : x < 2147483648) (hy : y < 2147483648) :
    x ||| y < 2147483648 := by
  have h := Nat.or_lt_two_pow (x := x) (y := y) (n := 31)
  norm_num at h
  exact h hx hy

theorem jsOr_nat {x y : Nat} (hx : x < 2147483648) (hy : y < 2147483648) :
    jsOr (x : Int) (y : Int) = ((x ||| y : Nat) : Int) := by
  rw [jsOr, toUint32_natCast, toUint32_natCast,
    Nat.mod_eq_of_lt (lt_trans hx (by norm_num)),
    Nat.mod_eq_of_lt (lt_trans hy (by norm_num)), ofUint32_of_lt (or_lt_half hx hy)]

theorem jsShr_nat {x : Nat} (hx : x < 2147483648) :
    jsShr (x : Int) 7 = ((x / 128 : Nat) : Int) := by
  rw [jsShr, toInt32_natCast_small hx]
  norm_num

theorem jsShl_nat {x b : Nat} (hb : b < 32) (h : x <<< b < 2147483648) :
    jsShl (x : Int) b = ((x <<< b : Nat) : Int) := by
  have hx : x < 2147483648 := by
    have hle : x ≤ x <<< b := by
      rw [Nat.shiftLeft_eq]
      calc x = x * 1 := (Nat.mul_one x).symm
      _ ≤ x * 2 ^ b := Nat.mul_le_mul_left x Nat.one_le_two_pow
    omega
  rw [jsShl, toUint32_natCast, Nat.mod_eq_of_lt (lt_trans hx (by norm_num)),
    Nat.mod_eq_of_lt hb, Nat.mod_eq_of_lt (lt_trans h (by norm_num)), ofUint32_of_lt h]

theorem toUint8_natCast (x : Nat) : toUint8 (x : Int) = x % 256 := by
  have h : ((x : Int) % 256) = ((x % 256 : Nat) : Int) := by push_cast; ring
  rw [toUint8, h, Int.toNat_natCast]

theorem toUint8_lt (v : Int) : toUint8 v < 256 := by
  have h1 : v % 256 < 256 := Int.emod_lt_of_pos v (by norm_num)
  have h2 : 0 ≤ v % 256 := Int.emod_nonneg v (by norm_num)
  unfold toUint8
  omega

theorem toUint32_lt (v : Int) : toUint32 v < 4294967296 := by
  have h1 : v % 4294967296 < 4294967296 := Int.emod_lt_of_pos v (by norm_num)
  unfold toUint32
  omega

theorem toInt32_lb (v : Int) : -2147483648 ≤ toInt32 v := by
  have h := toUint32_lt v
  rw [toInt32, ofUint32]
  split <;> omega

theorem toInt32_ub (v : Int) : toInt32 v < 2147483648 := by
  have h := toUint32_lt v
  rw [toInt32, ofUint32]
  split <;> omega

theorem jsShr7_lb (v : Int) : -16777216 ≤ jsShr v 7 := by
  have h1 := toInt32_lb v
  have h2 : ((-16777216 : Int)) = -2147483648 / 128 := by norm_num
  have h3 : (((2 : Nat) ^ (7 % 32) : Nat) : Int) = 128 := by norm_num
  rw [jsShr, h3, h2]
  exact Int.ediv_le_ediv (by norm_num) h1

theorem jsShr7_ub (v : Int) : jsShr v 7 < 16777216 := by
  have h1 := toInt32_ub v
  have h3 : (((2 : Nat) ^ (7 % 32) : Nat) : Int) = 128 := by norm_num
  have h4 : toInt32 v / 128 ≤ 2147483647 / 128 := Int.ediv_le_ediv (by norm_num) (by omega)
  rw [jsShr, h3]
  omega

/-! ## Bit-level lemmas about the emitted continuation bytes -/

theorem testBit_127 (j : Nat) : Nat.testBit 127 j = decide (j < 7) := by
  rcases Nat.lt_or_ge j 7 with h | h
  · interval_cases j <;> decide
  · have h1 : (127 : Nat) < 2 ^ j :=
      lt_of_lt_of_le (by norm_num) (Nat.pow_le_pow_right (by norm_num) h)
    simp [Nat.testBit_lt_two_pow h1, Nat.not_lt.mpr h]

theorem testBit_128 (j : Nat) : Nat.testBit 128 j = decide (j = 7) := by
  rcases Nat.lt_or_ge j 8 with h | h
  · interval_cases j <;> decide
  · have h1 : (128 : Nat) < 2 ^ j :=
      lt_of_lt_of_le (by norm_num) (Nat.pow_le_pow_right (by norm_num) h)
    have h2 : j ≠ 7 := by omega
    simp [Nat.testBit_lt_two_pow h1, h2]

theorem enc_byte_and (x : Nat) : ((x ||| 128) % 256) &&& 127 = x % 128 := by
  apply Nat.eq_of_testBit_eq
  intro j
  have e256 : (256 : Nat) = 2 ^ 8 := by norm_num
  have e128 : (128 : Nat) = 2 ^ 7 := by norm_num
  rw [Nat.testBit_and, e256, Nat.testBit_mod_two_pow, Nat.testBit_lor, testBit_127]
  conv_rhs => rw [e128, Nat.testBit_mod_two_pow]
  rcases Nat.lt_or_ge j 7 with h | h
  · have h8 : j < 8 := by omega
    have h7 : j ≠ 7 := by omega
    simp [h, h8, testBit_128, h7]
  · simp [Nat.not_lt.mpr h]

theorem enc_byte_ge (x : Nat) : 128 ≤ (x ||| 128) % 256 := by
  by_contra hcon
  have hlt : (x ||| 128) % 256 < 2 ^ 7 := by omega
  have h1 : Nat.testBit ((x ||| 128) % 256) 7 = false := Nat.testBit_lt_two_pow hlt
  have e256 : (256 : Nat) = 2 ^ 8 := by norm_num
  rw [e256, Nat.testBit_mod_two_pow, Nat.testBit_lor, testBit_128] at h1
  simp at h1

theorem lor_disjoint_add {b : Nat} (a i : Nat) (hb : b < 2 ^ i) :
    b ||| a <<< i = a * 2 ^ i + b := by
  apply Nat.eq_of_testBit_eq
  intro j
  rw [Nat.testBit_lor, Nat.testBit_shiftLeft, (by ring : a * 2 ^ i + b = 2 ^ i * a + b),
    Nat.testBit_mul_pow_two_add a hb]
  by_cases hj : j < i
  · simp [Nat.not_le.mpr hj, hj]
  · have hbf : Nat.testBit b j = false := Nat.testBit_lt_two_pow
      (lt_of_lt_of_le hb (Nat.pow_le_pow_right (by norm_num) (Nat.not_lt.mp hj)))
    simp [hbf, Nat.not_lt.mp hj, hj]

theorem lor_mod_div (v k : Nat) : v % 2 ^ k ||| (v / 2 ^ k) <<< k = v := by
  rw [lor_disjoint_add _ _ (Nat.mod_lt _ (Nat.pos_pow_of_pos k (by norm_num)))]
  exact Nat.div_add_mod' v (2 ^ k)

/-! ## Memory lemmas -/

theorem writeBytes_of_lt {j : Nat} : ∀ (bs : List Nat) (m : Mem) (off : Nat),
    j < off → writeBytes m off bs j = m j := by
  intro bs
  induction bs with
  | nil => intro m off _; rfl
  | cons b bs ih =>
    intro m off hj
    show writeBytes _ (off + 1) bs j = m j
    rw [ih _ (off + 1) (by omega)]
    simp [Nat.ne_of_lt hj]

theorem writeBytes_of_ge {j : Nat} : ∀ (bs : List Nat) (m : Mem) (off : Nat),
    off + bs.length ≤ j → writeBytes m off bs j = m j := by
  intro bs
  induction bs with
  | nil => intro m off _; rfl
  | cons b bs ih =>
    intro m off hj
    simp only [List.length_cons] at hj
    show writeBytes _ (off + 1) bs j = m j
    rw [ih _ (off + 1) (by omega)]
    have : j ≠ off := by omega
    simp [this]

theorem writeBytes_append (l1 : List Nat) : ∀ (l2 : List Nat) (m : Mem) (off : Nat),
    writeBytes m off (l1 ++ l2) = writeBytes (writeBytes m off l1) (off + l1.length) l2 := by
  induction l1 with
  | nil => intro l2 m off; simp [writeBytes]
  | cons b bs ih =>
    intro l2 m off
    show writeBytes _ (off + 1) (bs ++ l2) =
      writeBytes (writeBytes _ (off + 1) bs) (off + (bs.length + 1)) l2
    rw [ih l2 _ (off + 1), show off + 1 + bs.length = off + (bs.length + 1) from by omega]

theorem getUint8_writeBytes_head (m : Mem) (off : Nat) (b : Nat) (bs : List Nat) :
    getUint8 (writeBytes m off (b :: bs)) off = b % 256 := by
  show getUint8 (writeBytes _ (off + 1) bs) off = b % 256
  unfold getUint8
  rw [writeBytes_of_lt bs _ (off + 1) (by omega)]
  simp [Nat.mod_mod_of_dvd]

theorem readBytes_writeBytes : ∀ (bs : List Nat) (m : Mem) (off : Nat),
    (∀ b ∈ bs, b < 256) → readBytes (writeBytes m off bs) off bs.length = bs := by
  intro bs
  induction bs with
  | nil => intro m off _; rfl
  | cons b bs ih =>
    intro m off hlt
    have hb : b < 256 := hlt b (by simp)
    have h1 : getUint8 (writeBytes m off (b :: bs)) off = b := by
      show getUint8 (writeBytes _ (off + 1) bs) off = b
      unfold getUint8
      rw [writeBytes_of_lt bs _ (off + 1) (by omega)]
      simp [Nat.mod_eq_of_lt hb]
    show getUint8 (writeBytes m off (b :: bs)) off ::
      readBytes (writeBytes m off (b :: bs)) (off + 1) bs.length = b :: bs
    rw [h1]
    show b :: readBytes (writeBytes (fun j => if j = off then b % 256 else m j) (off + 1) bs)
      (off + 1) bs.length = b :: bs
    rw [ih _ (off + 1) (fun x hx => hlt x (by simp [hx]))]

theorem readBytes_congr {m1 m2 : Mem} : ∀ (n off : Nat),
    (∀ j, off ≤ j → j < off + n → getUint8 m1 j = getUint8 m2 j) →
    readBytes m1 off n = readBytes m2 off n := by
  intro n
  induction n with
  | zero => intro off _; rfl
  | succ n ih =>
    intro off h
    rw [readBytes, readBytes, h off (by omega) (by omega), ih (off + 1) (fun j h1 h2 => h j (by omega) (by omega))]

theorem readBytes_split (a : Nat) : ∀ (b off : Nat) (m : Mem),
    readBytes m off (a + b) = readBytes m off a ++ readBytes m (off + a) b := by
  induction a with
  | zero => intro b off m; simp [readBytes]
  | succ a ih =>
    intro b off m
    rw [show a + 1 + b = (a + b) + 1 from by omega]
    show getUint8 m off :: readBytes m (off + 1) (a + b) =
      readBytes m off (a + 1) ++ readBytes m (off + (a + 1)) b
    rw [ih b (off + 1) m]
    show _ = (getUint8 m off :: readBytes m (off + 1) a) ++ _
    rw [show off + 1 + a = off + (a + 1) from by omega]
    simp [List.cons_append]

theorem readBytes_length (m : Mem) : ∀ (n off : Nat), (readBytes m off n).length = n := by
  intro n
  induction n with
  | zero => intro off; rfl
  | succ n ih => intro off; rw [readBytes, List.length_cons, ih (off + 1)]

/-! ## Structural lemmas for the VarInt codec -/

theorem setUint8_eq_writeBytes (m : Mem) (off : Nat) (v : Int) :
    setUint8 m off v = writeBytes m off [toUint8 v] := by
  funext j
  show (if j = off then toUint8 v else m j) = (if j = off then toUint8 v % 256 else m j)
  rw [Nat.mod_eq_of_lt (toUint8_lt v)]

theorem writeBytes_cons (m : Mem) (off : Nat) (b : Nat) (bs : List Nat) :
    writeBytes m off (b :: bs) = writeBytes (writeBytes m off [b]) (off + 1) bs := rfl

theorem varIntEncodeF_mem_lt : ∀ (fuel : Nat) (v : Int), ∀ b ∈ varIntEncodeF fuel v, b < 256 := by
  intro fuel
  induction fuel with
  | zero =>
    intro v b hb
    simp only [varIntEncodeF, List.mem_singleton] at hb
    exact hb ▸ toUint8_lt v
  | succ fuel ih =>
    intro v b hb
    rw [varIntEncodeF] at hb
    split at hb
    · simp only [List.mem_cons] at hb
      rcases hb with h | h
      · exact h ▸ toUint8_lt _
      · exact ih _ b h
    · simp only [List.mem_singleton] at hb
      exact hb ▸ toUint8_lt v

theorem varIntSizeF_eq_length : ∀ (fuel : Nat) (v : Int),
    varIntSizeF fuel v = (varIntEncodeF fuel v).length := by
  intro fuel
  induction fuel with
  | zero => intro v; rfl
  | succ fuel ih =>
    intro v
    rw [varIntSizeF, varIntEncodeF]
    split
    · simp [ih]
    · rfl

theorem varIntEncodeList_length (v : Int) : (varIntEncodeList v).length = varIntSize v :=
  (varIntSizeF_eq_length 10 v).symm

theorem varIntEncodeList_mem_lt (v : Int) : ∀ b ∈ varIntEncodeList v, b < 256 :=
  varIntEncodeF_mem_lt 10 v

theorem varIntEncodeStF_eq : ∀ (fuel : Nat) (m : Mem) (off : Nat) (v : Int),
    varIntEncodeStF fuel m off v =
      (writeBytes m off (varIntEncodeF fuel v), off + (varIntEncodeF fuel v).length) := by
  intro fuel
  induction fuel with
  | zero =>
    intro m off v
    show (setUint8 m off v, off + 1) = (writeBytes m off [toUint8 v], off + 1)
    rw [setUint8_eq_writeBytes]
  | succ fuel ih =>
    intro m off v
    rw [varIntEncodeStF, varIntEncodeF]
    by_cases h : (128 : Int) ≤ v
    · rw [if_pos h, if_pos h, ih (setUint8 m off (jsOr v 128)) (off + 1) (jsShr v 7),
        setUint8_eq_writeBytes, writeBytes_cons]
      simp only [Prod.mk.injEq, List.length_cons]
      exact ⟨rfl, by omega⟩
    · rw [if_neg h, if_neg h]
      show (setUint8 m off v, off + 1) = (writeBytes m off [toUint8 v], off + 1)
      rw [setUint8_eq_writeBytes]

theorem varIntEncodeSt_eq (m : Mem) (off : Nat) (v : Int) :
    varIntEncodeSt m off v = (writeBytes m off (varIntEncodeList v), off + varIntSize v) := by
  rw [varIntEncodeSt, varIntEncodeStF_eq 10 m off v, varIntSize, varIntSizeF_eq_length]
  rfl

theorem varIntEncodeF_of_lt {v : Int} (h : v < 128) :
    ∀ fuel, varIntEncodeF fuel v = [toUint8 v] := by
  intro fuel
  cases fuel with
  | zero => rfl
  | succ f => simp [varIntEncodeF, not_le.mpr h]

theorem varIntEncodeF_fuel : ∀ (k f : Nat) (v : Nat), k ≤ f → v < 2 ^ (7 * k + 7) →
    7 * k + 7 ≤ 31 → varIntEncodeF f (v : Int) = varIntEncodeF k (v : Int) := by
  intro k
  induction k with
  | zero =>
    intro f v _ hv _
    have hv128 : v < 128 := by norm_num at hv; exact hv
    have hv' : (v : Int) < 128 := by exact_mod_cast hv128
    rw [varIntEncodeF_of_lt hv' f, varIntEncodeF_of_lt hv' 0]
  | succ k ih =>
    intro f v hkf hv hside
    obtain ⟨f', rfl⟩ : ∃ f', f = f' + 1 := ⟨f - 1, by omega⟩
    rcases Nat.lt_or_ge v 128 with h | h
    · have hv' : (v : Int) < 128 := by exact_mod_cast h
      rw [varIntEncodeF_of_lt hv' (f' + 1), varIntEncodeF_of_lt hv' (k + 1)]
    · have hcast : (128 : Int) ≤ (v : Int) := by exact_mod_cast h
      have hv31 : v < 2147483648 := by
        have h2 : (2 : Nat) ^ (7 * (k + 1) + 7) ≤ 2 ^ 31 :=
          Nat.pow_le_pow_right (by norm_num) (by omega)
        have h3 : (2 : Nat) ^ 31 = 2147483648 := by norm_num
        omega
      rw [varIntEncodeF, varIntEncodeF, if_pos hcast, if_pos hcast]
      congr 1
      rw [jsShr_nat hv31]
      apply ih f' (v / 128) (by omega) ?_ (by omega)
      rw [Nat.div_lt_iff_lt_mul (by norm_num)]
      calc v < 2 ^ (7 * (k + 1) + 7) := hv
      _ = 2 ^ (7 * k + 7) * 128 := by rw [show 7 * (k + 1) + 7 = (7 * k + 7) + 7 from by omega, pow_add]; norm_num

theorem varIntEncodeList_loop_eq (v : Int) :
    varIntEncodeList v =
      if 128 ≤ v then toUint8 (jsOr v 128) :: varIntEncodeList (jsShr v 7)
      else [toUint8 v] := by
  by_cases h : (128 : Int) ≤ v
  · rw [if_pos h, varIntEncodeList, show (10 : Nat) = 9 + 1 from rfl, varIntEncodeF, if_pos h]
    congr 1
    rcases lt_or_le (jsShr v 7) 128 with hw | hw
    · rw [varIntEncodeF_of_lt hw 9, varIntEncodeList, varIntEncodeF_of_lt hw 10]
    · have hw0 : 0 ≤ jsShr v 7 := le_trans (by norm_num) hw
      obtain ⟨n, hn⟩ : ∃ n : Nat, jsShr v 7 = (n : Int) :=
        ⟨(jsShr v 7).toNat, (Int.toNat_of_nonneg hw0).symm⟩
      have hub := jsShr7_ub v
      rw [hn] at hub
      have hn2 : n < 2 ^ (7 * 3 + 7) := by
        have : n < 16777216 := by exact_mod_cast hub
        omega
      rw [hn, varIntEncodeList, varIntEncodeF_fuel 3 9 n (by norm_num) hn2 (by norm_num),
        ← varIntEncodeF_fuel 3 10 n (by norm_num) hn2 (by norm_num)]
  · rw [if_neg h, varIntEncodeList, varIntEncodeF_of_lt (not_le.mp h) 10]

theorem varIntSize_loop_eq (v : Int) :
    varIntSize v = if 128 ≤ v then varIntSize (jsShr v 7) + 1 else 1 := by
  rw [varIntSize, varIntSizeF_eq_length 10 v]
  show (varIntEncodeList v).length = _
  rw [varIntEncodeList_loop_eq v]
  by_cases h : (128 : Int) ≤ v
  · rw [if_pos h, if_pos h]
    simp only [List.length_cons]
    rw [varIntSize, varIntSizeF_eq_length 10 (jsShr v 7)]
    rfl
  · rw [if_neg h, if_neg h]
    rfl

/-! ## The VarInt round trip below 2^31 -/

theorem shl_lt_31 {v b : Nat} (hb : b ≤ 31) (hv : v < 2 ^ (31 - b)) :
    v <<< b < 2147483648 := by
  rw [Nat.shiftLeft_eq]
  have h1 : v * 2 ^ b < 2 ^ (31 - b) * 2 ^ b :=
    (Nat.mul_lt_mul_right (Nat.two_pow_pos b)).mpr hv
  have h2 : (2 : Nat) ^ (31 - b) * 2 ^ b = 2 ^ 31 := by
    rw [← pow_add]
    congr 1
    omega
  have h3 : (2 : Nat) ^ 31 = 2147483648 := by norm_num
  omega

theorem varIntDecodeGo_step (m : Mem) (off n : Nat) (value : Int) (bitOffset : Nat) :
    varIntDecodeGo m off (n + 1) value bitOffset =
      if getUint8 m off < 128 then
        if n = 0 ∧ 1 < getUint8 m off then (value, off + 1)
        else (jsOr value (jsShl ((getUint8 m off : Nat) : Int) bitOffset), off + 1)
      else varIntDecodeGo m (off + 1) n
        (jsOr value (jsShl ((getUint8 m off &&& 127 : Nat) : Int) bitOffset)) (bitOffset + 7) :=
  rfl

theorem varIntDecode_core : ∀ (k : Nat) (v acc b : Nat) (m : Mem) (off : Nat),
    v < 2 ^ (7 * k) →
    v < 2 ^ (31 - b) →
    7 ∣ b → b ≤ 28 →
    acc < 2 ^ b →
    readBytes m off (varIntEncodeF (k + 1) (v : Int)).length = varIntEncodeF (k + 1) (v : Int) →
    varIntDecodeGo m off (k + 1) (acc : Int) b =
      (((acc + v * 2 ^ b : Nat) : Int), off + (varIntEncodeF (k + 1) (v : Int)).length) := by
  intro k
  induction k with
  | zero =>
    intro v acc b m off hv7 _ _ hb28 hacc hbytes
    have hv0 : v = 0 := by
      have h1 : v < 1 := by simpa using hv7
      omega
    subst hv0
    have hL : varIntEncodeF (0 + 1) ((0 : Nat) : Int) = [0] := rfl
    rw [hL] at hbytes
    have hbyte : getUint8 m off = 0 := by
      have h2 : getUint8 m off :: readBytes m (off + 1) 0 = [0] := hbytes
      exact ((List.cons.injEq _ _ _ _).mp h2).1
    have hacc31 : acc < 2147483648 := by
      have h1 : (2 : Nat) ^ b ≤ 2 ^ 28 := Nat.pow_le_pow_right (by norm_num) hb28
      have h2 : (2 : Nat) ^ 28 < 2147483648 := by norm_num
      omega
    have hshl : jsShl ((0 : Nat) : Int) b = (((0 : Nat) <<< b : Nat) : Int) :=
      jsShl_nat (by omega) (by rw [Nat.zero_shiftLeft]; norm_num)
    rw [varIntDecodeGo_step, hbyte, if_pos (by norm_num), if_neg (by simp), hshl,
      Nat.zero_shiftLeft, jsOr_nat hacc31 (by norm_num), hL]
    simp only [List.length_singleton, Prod.mk.injEq]
    constructor
    · congr 1
      simp
    · trivial
  | succ k ih =>
    intro v acc b m off hv7 hv31b hb7 hb28 hacc hbytes
    have hacc31 : acc < 2147483648 := by
      have h1 : (2 : Nat) ^ b ≤ 2 ^ 28 := Nat.pow_le_pow_right (by norm_num) hb28
      have h2 : (2 : Nat) ^ 28 < 2147483648 := by norm_num
      omega
    have hv31 : v < 2147483648 := by
      have h1 : (2 : Nat) ^ (31 - b) ≤ 2 ^ 31 := Nat.pow_le_pow_right (by norm_num) (by omega)
      have h2 : (2 : Nat) ^ 31 = 2147483648 := by norm_num
      omega
    rcases Nat.lt_or_ge v 128 with hsmall | hbig
    · -- final byte: the encoding is the single byte v
      have hvInt : ((v : Nat) : Int) < 128 := by exact_mod_cast hsmall
      have hL : varIntEncodeF (k + 1 + 1) ((v : Nat) : Int) = [toUint8 (v : Int)] :=
        varIntEncodeF_of_lt hvInt _
      have htu : toUint8 ((v : Nat) : Int) = v := by
        rw [toUint8_natCast, Nat.mod_eq_of_lt (by omega)]
      rw [hL, htu] at hbytes
      have hbyte : getUint8 m off = v := by
        have h2 : getUint8 m off :: readBytes m (off + 1) 0 = [v] := hbytes
        exact ((List.cons.injEq _ _ _ _).mp h2).1
      have hshl31 : v <<< b < 2147483648 := shl_lt_31 (by omega) hv31b
      have hshl : jsShl ((v : Nat) : Int) b = ((v <<< b : Nat) : Int) :=
        jsShl_nat (by omega) hshl31
      rw [varIntDecodeGo_step, hbyte, if_pos hsmall, if_neg (by simp), hshl,
        jsOr_nat hacc31 hshl31, lor_disjoint_add v b hacc, hL, htu]
      simp only [List.length_singleton, Prod.mk.injEq]
      constructor
      · congr 1
        exact Nat.add_comm _ _
      · trivial
    · -- continuation byte
      have hb23 : b < 24 := by
        by_contra hcon
        have h1 : 31 - b ≤ 7 := by omega
        have h2 : (2 : Nat) ^ (31 - b) ≤ 2 ^ 7 := Nat.pow_le_pow_right (by norm_num) h1
        have h4 : v < 128 := by
          have h3 : (2 : Nat) ^ 7 = 128 := by norm_num
          omega
        omega
      have hbig' : (128 : Int) ≤ ((v : Nat) : Int) := by exact_mod_cast hbig
      have hL : varIntEncodeF (k + 1 + 1) ((v : Nat) : Int) =
          toUint8 (jsOr ((v : Nat) : Int) 128) ::
            varIntEncodeF (k + 1) (jsShr ((v : Nat) : Int) 7) := by
        rw [varIntEncodeF, if_pos hbig']
      have hOr128 : jsOr ((v : Nat) : Int) 128 = (((v ||| 128 : Nat) : Nat) : Int) := by
        have h0 : ((128 : Nat) : Int) = (128 : Int) := by norm_num
        rw [← h0, jsOr_nat hv31 (by norm_num)]
      have hShr : jsShr ((v : Nat) : Int) 7 = ((v / 128 : Nat) : Int) := jsShr_nat hv31
      have hbyte0 : toUint8 (jsOr ((v : Nat) : Int) 128) = (v ||| 128) % 256 := by
        rw [hOr128, toUint8_natCast]
      rw [hL, hbyte0, hShr] at hbytes
      set L2 := varIntEncodeF (k + 1) ((v / 128 : Nat) : Int) with hL2def
      have hbytes1 : getUint8 m off = (v ||| 128) % 256 ∧
          readBytes m (off + 1) L2.length = L2 := by
        have h0 : getUint8 m off :: readBytes m (off + 1) L2.length =
            (v ||| 128) % 256 :: L2 := hbytes
        exact ⟨((List.cons.injEq _ _ _ _).mp h0).1, ((List.cons.injEq _ _ _ _).mp h0).2⟩
      have hge : ¬ getUint8 m off < 128 := by
        rw [hbytes1.1]
        exact not_lt.mpr (enc_byte_ge v)
      have hand : getUint8 m off &&& 127 = v % 128 := by
        rw [hbytes1.1]
        exact enc_byte_and v
      have hshl_lt : (v % 128) <<< b < 2147483648 := by
        apply shl_lt_31 (by omega)
        have h1 : v % 128 < 128 := Nat.mod_lt v (by norm_num)
        have h2 : (128 : Nat) ≤ 2 ^ (31 - b) := by
          calc (128 : Nat) = 2 ^ 7 := by norm_num
          _ ≤ 2 ^ (31 - b) := Nat.pow_le_pow_right (by norm_num) (by omega)
        omega
      have hshl : jsShl (((v % 128 : Nat)) : Int) b = (((v % 128) <<< b : Nat) : Int) :=
        jsShl_nat (by omega) hshl_lt
      have haccOr : jsOr ((acc : Nat) : Int) ((((v % 128) <<< b : Nat)) : Int) =
          (((v % 128) * 2 ^ b + acc : Nat) : Int) := by
        rw [jsOr_nat hacc31 hshl_lt, lor_disjoint_add (v % 128) b hacc]
      rw [varIntDecodeGo_step, if_neg hge, hand, hshl, haccOr]
      have hih := ih (v / 128) ((v % 128) * 2 ^ b + acc) (b + 7) m (off + 1)
        (by
          have h2 : (2 : Nat) ^ (7 * (k + 1)) = 2 ^ (7 * k) * 128 := by
            rw [show 7 * (k + 1) = 7 * k + 7 from by omega, pow_add]
            norm_num
          rw [Nat.div_lt_iff_lt_mul (by norm_num)]
          omega)
        (by
          have h2 : (2 : Nat) ^ (31 - b) = 2 ^ (31 - b - 7) * 128 := by
            rw [show (31 : Nat) - b = (31 - b - 7) + 7 from by omega, pow_add]
            norm_num
          rw [show (31 : Nat) - (b + 7) = 31 - b - 7 from by omega,
            Nat.div_lt_iff_lt_mul (by norm_num)]
          omega)
        (dvd_add hb7 (dvd_refl 7))
        (by
          rcases hb7 with ⟨c, hc⟩
          omega)
        (by
          have h1 : v % 128 ≤ 127 := by omega
          have h2 : (v % 128) * 2 ^ b ≤ 127 * 2 ^ b := Nat.mul_le_mul_right _ h1
          have h3 : (2 : Nat) ^ (b + 7) = 2 ^ b * 128 := by rw [pow_add]; norm_num
          omega)
        hbytes1.2
      rw [hih]
      have hval : v % 128 * 2 ^ b + acc + v / 128 * 2 ^ (b + 7) = acc + v * 2 ^ b := by
        have h128 : v % 128 + v / 128 * 128 = v := by omega
        have h3 : (2 : Nat) ^ (b + 7) = 2 ^ b * 128 := by rw [pow_add]; norm_num
        calc v % 128 * 2 ^ b + acc + v / 128 * 2 ^ (b + 7)
            = (v % 128 + v / 128 * 128) * 2 ^ b + acc := by rw [h3]; ring
        _ = acc + v * 2 ^ b := by rw [h128]; ring
      rw [hval, hL]
      simp only [hShr, List.length_cons, Prod.mk.injEq]
      exact ⟨trivial, by omega⟩

theorem varIntRoundTrip (v : Nat) (hv : v < 2147483648) (m : Mem) (off : Nat) :
    varIntDecode (writeBytes m off (varIntEncodeList (v : Int))) off =
      ((v : Int), off + varIntSize (v : Int)) := by
  have hbytes : readBytes (writeBytes m off (varIntEncodeList (v : Int))) off
      (varIntEncodeF (9 + 1) (v : Int)).length = varIntEncodeF (9 + 1) (v : Int) := by
    exact readBytes_writeBytes _ m off (varIntEncodeList_mem_lt _)
  have hcore := varIntDecode_core 9 v 0 0 (writeBytes m off (varIntEncodeList (v : Int))) off
    (lt_of_lt_of_le hv (by norm_num))
    (by simpa using hv)
    (dvd_zero 7) (by norm_num) (by norm_num)
    hbytes
  norm_num at hcore
  show varIntDecodeGo (writeBytes m off (varIntEncodeList (v : Int))) off 10 0 0 =
    ((v : Int), off + varIntSize (v : Int))
  rw [hcore]
  congr 1
  rw [varIntSize, varIntSizeF_eq_length]

theorem enc_byte_spec (x : Nat) : (x ||| 128) % 256 = x &&& 127 ||| 128 := by
  apply Nat.eq_of_testBit_eq
  intro j
  have e256 : (256 : Nat) = 2 ^ 8 := by norm_num
  rw [e256, Nat.testBit_mod_two_pow, Nat.testBit_lor, Nat.testBit_lor, Nat.testBit_and,
    testBit_127, testBit_128]
  rcases Nat.lt_or_ge j 8 with h8 | h8
  · by_cases h7 : j = 7
    · simp [h7]
    · rcases Nat.lt_or_ge j 7 with h | h
      · simp [h8, h7, h]
      · omega
  · have h7 : j ≠ 7 := by omega
    simp [show ¬ j < 8 from by omega, h7, show ¬ j < 7 from by omega]

theorem specVarIntShiftCountF_fuel : ∀ (v f1 f2 : Nat), v ≤ f1 → v ≤ f2 →
    specVarIntShiftCountF f1 v = specVarIntShiftCountF f2 v := by
  intro v
  induction v using Nat.strong_induction_on with
  | _ v ih =>
    intro f1 f2 h1 h2
    rcases Nat.lt_or_ge v 128 with hs | hb
    · cases f1 with
      | zero =>
        cases f2 with
        | zero => rfl
        | succ f => simp [specVarIntShiftCountF, hs]
      | succ f =>
        cases f2 with
        | zero => simp [specVarIntShiftCountF, hs]
        | succ g => simp [specVarIntShiftCountF, hs]
    · obtain ⟨g1, rfl⟩ : ∃ g, f1 = g + 1 := ⟨f1 - 1, by omega⟩
      obtain ⟨g2, rfl⟩ : ∃ g, f2 = g + 1 := ⟨f2 - 1, by omega⟩
      simp only [specVarIntShiftCountF, if_neg (by omega : ¬ v < 128)]
      have hd : v / 128 < v := Nat.div_lt_self (by omega) (by norm_num)
      rw [ih (v / 128) hd g1 g2 (by omega) (by omega)]

theorem specVarIntEncodeF_fuel : ∀ (v f1 f2 : Nat), v ≤ f1 → v ≤ f2 →
    specVarIntEncodeF f1 v = specVarIntEncodeF f2 v := by
  intro v
  induction v using Nat.strong_induction_on with
  | _ v ih =>
    intro f1 f2 h1 h2
    rcases Nat.lt_or_ge v 128 with hs | hb
    · cases f1 with
      | zero =>
        cases f2 with
        | zero => rfl
        | succ f => simp [specVarIntEncodeF, hs]
      | succ f =>
        cases f2 with
        | zero => simp [specVarIntEncodeF, hs]
        | succ g => simp [specVarIntEncodeF, hs]
    · obtain ⟨g1, rfl⟩ : ∃ g, f1 = g + 1 := ⟨f1 - 1, by omega⟩
      obtain ⟨g2, rfl⟩ : ∃ g, f2 = g + 1 := ⟨f2 - 1, by omega⟩
      simp only [specVarIntEncodeF, if_neg (by omega : ¬ v < 128)]
      have hd : v / 128 < v := Nat.div_lt_self (by omega) (by norm_num)
      rw [ih (v / 128) hd g1 g2 (by omega) (by omega)]

theorem specVarIntShiftCount_rec (v : Nat) :
    specVarIntShiftCount v = if v < 128 then 0 else specVarIntShiftCount (v / 128) + 1 := by
  rcases Nat.lt_or_ge v 128 with hs | hb
  · rw [if_pos hs]
    cases v with
    | zero => rfl
    | succ n => simp [specVarIntShiftCount, specVarIntShiftCountF, hs]
  · rw [if_neg (not_lt.mpr hb)]
    obtain ⟨f, rfl⟩ : ∃ f, v = f + 1 := ⟨v - 1, by omega⟩
    show specVarIntShiftCountF (f + 1) (f + 1) = _
    simp only [specVarIntShiftCountF, if_neg (not_lt.mpr hb)]
    rw [specVarIntShiftCountF_fuel ((f + 1) / 128) f ((f + 1) / 128) (by omega) (by omega)]
    rfl

theorem specVarIntEncode_rec (v : Nat) :
    specVarIntEncode v =
      if v < 128 then [v] else (v &&& 127 ||| 128) :: specVarIntEncode (v / 128) := by
  rcases Nat.lt_or_ge v 128 with hs | hb
  · rw [if_pos hs]
    cases v with
    | zero => rfl
    | succ n => simp [specVarIntEncode, specVarIntEncodeF, hs]
  · rw [if_neg (not_lt.mpr hb)]
    obtain ⟨f, rfl⟩ : ∃ f, v = f + 1 := ⟨v - 1, by omega⟩
    show specVarIntEncodeF (f + 1) (f + 1) = _
    simp only [specVarIntEncodeF, if_neg (not_lt.mpr hb)]
    rw [specVarIntEncodeF_fuel ((f + 1) / 128) f ((f + 1) / 128) (by omega) (by omega)]
    rfl

theorem varIntEncodeList_spec : ∀ (v : Nat), v < 2147483648 →
    varIntEncodeList (v : Int) = specVarIntEncode v ∧
      varIntSize (v : Int) = specVarIntShiftCount v + 1 := by
  intro v
  induction v using Nat.strong_induction_on with
  | _ v ih =>
    intro hv
    rcases Nat.lt_or_ge v 128 with hs | hb
    · have hvI : ((v : Nat) : Int) < 128 := by exact_mod_cast hs
      constructor
      · rw [varIntEncodeList, varIntEncodeF_of_lt hvI 10, specVarIntEncode_rec, if_pos hs,
          toUint8_natCast, Nat.mod_eq_of_lt (by omega)]
      · rw [varIntSize_loop_eq, if_neg (not_le.mpr hvI), specVarIntShiftCount_rec, if_pos hs]
    · have hbI : (128 : Int) ≤ ((v : Nat) : Int) := by exact_mod_cast hb
      have ihd := ih (v / 128) (Nat.div_lt_self (by omega) (by norm_num))
        (by omega)
      have hcast : (128 : Int) = ((128 : Nat) : Int) := by norm_num
      constructor
      · rw [varIntEncodeList_loop_eq, if_pos hbI, jsShr_nat hv, ihd.1]
        conv_rhs => rw [specVarIntEncode_rec]
        rw [if_neg (not_lt.mpr hb)]
        congr 1
        rw [hcast, jsOr_nat hv (by norm_num), toUint8_natCast]
        exact enc_byte_spec v
      · rw [varIntSize_loop_eq, if_pos hbI, jsShr_nat hv, ihd.2]
        conv_rhs => rw [specVarIntShiftCount_rec]
        rw [if_neg (not_lt.mpr hb)]

/-! ## Codec discipline (spec section 4.1) for the library codecs -/

theorem goodType_of_form (T : DType) (f : JSValue → List Nat)
    (hsize : ∀ v, T.sizeOf v = (f v).length)
    (hlt : ∀ v, ∀ x ∈ f v, x < 256)
    (henc : ∀ (m : Mem) (off : Nat) (v : JSValue),
      T.encode m off v = (writeBytes m off (f v), off + (f v).length)) :
    GoodType T ∧ ∀ v, T.encBytes v = f v := by
  have hbytes : ∀ v, T.encBytes v = f v := by
    intro v
    rw [DType.encBytes, henc zeroMem 0 v, hsize v]
    exact readBytes_writeBytes (f v) zeroMem 0 (hlt v)
  refine ⟨?_, hbytes⟩
  intro v
  refine ⟨by rw [hbytes v, hsize v], by rw [hbytes v]; exact hlt v, ?_⟩
  intro m off
  rw [henc, hbytes v, hsize v]

theorem goodType_UInt8_full :
    GoodType Data.UInt8 ∧ ∀ v, Data.UInt8.encBytes v = [toUint8 (jsNumOf v)] := by
  apply goodType_of_form
  · intro v
    rfl
  · intro v x hx
    simp only [List.mem_singleton] at hx
    exact hx ▸ toUint8_lt _
  · intro m off v
    show (setUint8 m off (jsNumOf v), off + 1) = _
    rw [setUint8_eq_writeBytes]
    rfl

theorem goodType_UInt8 : GoodType Data.UInt8 := goodType_UInt8_full.1

theorem writeSeq_eq : ∀ (s : List Nat) (m : Mem) (off : Nat),
    writeSeq m off s = (writeBytes m off (s.map fun c => c % 256), off + s.length) := by
  intro s
  induction s with
  | nil => intro m off; rfl
  | cons c cs ih =>
    intro m off
    show writeSeq (setUint8 m off (c : Int)) (off + 1) cs = _
    rw [ih (setUint8 m off (c : Int)) (off + 1)]
    have hm : setUint8 m off (c : Int) = fun j => if j = off then c % 256 % 256 else m j := by
      funext j
      show (if j = off then toUint8 (c : Int) else m j) = _
      rw [toUint8_natCast, Nat.mod_mod_of_dvd _ (dvd_refl 256)]
    rw [hm]
    show (writeBytes _ (off + 1) (cs.map fun c => c % 256), off + 1 + cs.length) = _
    simp only [List.map_cons, List.length_cons, writeBytes, Prod.mk.injEq]
    exact ⟨trivial, by omega⟩

theorem str_bytes_lt (s : List Nat) (lenv : Int) :
    ∀ x ∈ varIntEncodeList lenv ++ s.map (fun c => c % 256), x < 256 := by
  intro x hx
  rcases List.mem_append.mp hx with h | h
  · exact varIntEncodeList_mem_lt _ x h
  · obtain ⟨c, _, hc⟩ := List.mem_map.mp h
    omega

theorem goodType_Str_full :
    GoodType Data.Str ∧ ∀ v, Data.Str.encBytes v =
      varIntEncodeList ((jsStrOf v).length : Int) ++ (jsStrOf v).map (fun c => c % 256) := by
  apply goodType_of_form
  · intro v
    show varIntSize ((jsStrOf v).length : Int) + (jsStrOf v).length = _
    rw [List.length_append, List.length_map, varIntEncodeList_length]
  · intro v
    exact str_bytes_lt _ _
  · intro m off v
    show writeSeq (varIntEncodeSt m off ((jsStrOf v).length : Int)).1
        (varIntEncodeSt m off ((jsStrOf v).length : Int)).2 (jsStrOf v) = _
    rw [varIntEncodeSt_eq, writeSeq_eq, writeBytes_append]
    simp only [Prod.mk.injEq, List.length_append, List.length_map, varIntEncodeList_length]
    exact ⟨trivial, by omega⟩

theorem goodType_Str : GoodType Data.Str := goodType_Str_full.1

theorem goodType_VarInt_full :
    GoodType Data.VarInt ∧ ∀ v, Data.VarInt.encBytes v = varIntEncodeList (jsNumOf v) := by
  apply goodType_of_form
  · intro v
    show varIntSize (jsNumOf v) = _
    rw [varIntEncodeList_length]
  · intro v
    exact varIntEncodeList_mem_lt _
  · intro m off v
    show varIntEncodeSt m off (jsNumOf v) = _
    rw [varIntEncodeSt_eq, varIntEncodeList_length]

theorem goodType_VarInt : GoodType Data.VarInt := goodType_VarInt_full.1

/-! ## Aggregate encode of an ordered field list -/

theorem structEncodeGo_eq : ∀ (fields : List (String × DType)) (m : Mem) (off : Nat)
    (v : JSValue), (∀ ft ∈ fields, GoodType ft.2) →
    structEncodeGo fields m off v =
      (writeBytes m off (structBytes fields v), off + computeSizeGo fields v) := by
  intro fields
  induction fields with
  | nil =>
    intro m off v _
    simp [structEncodeGo, structBytes, writeBytes, computeSizeGo]
  | cons ft rest ih =>
    intro m off v hg
    obtain ⟨k, T⟩ := ft
    have hT := hg (k, T) (by simp)
    have h1 := (hT (objGet v k)).2.2 m off
    show structEncodeGo rest (T.encode m off (objGet v k)).1 (T.encode m off (objGet v k)).2 v = _
    rw [h1]
    show structEncodeGo rest (writeBytes m off (T.encBytes (objGet v k)))
      (off + T.sizeOf (objGet v k)) v = _
    rw [ih _ _ v (fun x hx => hg x (by simp [hx]))]
    have hsb : structBytes ((k, T) :: rest) v =
        T.encBytes (objGet v k) ++ structBytes rest v := by
      simp [structBytes]
    rw [hsb, writeBytes_append, (hT (objGet v k)).1]
    show _ = (writeBytes (writeBytes m off (T.encBytes (objGet v k)))
      (off + T.sizeOf (objGet v k)) (structBytes rest v),
      off + (T.sizeOf (objGet v k) + computeSizeGo rest v))
    simp only [Prod.mk.injEq]
    exact ⟨trivial, by omega⟩

/-! ## Aggregate decode of an ordered field list -/

theorem objSet_not_mem (l : List (String × JSValue)) (k : String) (v : JSValue)
    (h : ∀ p ∈ l, p.1 ≠ k) : objSet l k v = l ++ [(k, v)] := by
  rw [objSet, if_neg]
  intro hc
  rw [List.contains_eq_any_beq] at hc
  simp only [List.any_eq_true, beq_iff_eq] at hc
  obtain ⟨x, hx, hxk⟩ := hc
  obtain ⟨p, hp, hpx⟩ := List.mem_map.mp hx
  exact h p hp (hpx.trans hxk.symm)

theorem structDecodeGo_eq : ∀ (fields : List (String × DType)) (m : Mem)
    (acc : List (String × JSValue)) (off : Nat),
    (∀ p ∈ acc, ∀ ft ∈ fields, p.1 ≠ ft.1) →
    (fields.map Prod.fst).Nodup →
    structDecodeGo m fields acc off =
      (acc ++ (fieldsDecodeList m fields off).1, (fieldsDecodeList m fields off).2) := by
  intro fields
  induction fields with
  | nil =>
    intro m acc off _ _
    simp [structDecodeGo, fieldsDecodeList]
  | cons ft rest ih =>
    intro m acc off hdisj hnodup
    obtain ⟨k, T⟩ := ft
    show structDecodeGo m rest (objSet acc k (T.decode m off).1) (T.decode m off).2 = _
    rw [objSet_not_mem acc k _ (fun p hp => hdisj p hp (k, T) (by simp))]
    rw [ih m (acc ++ [(k, (T.decode m off).1)]) (T.decode m off).2 ?_ ?_]
    · show _ = (acc ++ ((k, (T.decode m off).1) ::
        (fieldsDecodeList m rest (T.decode m off).2).1),
        (fieldsDecodeList m rest (T.decode m off).2).2)
      rw [List.append_assoc]
      rfl
    · intro p hp ft2 hft2
      rcases List.mem_append.mp hp with h1 | h1
      · exact hdisj p h1 ft2 (by simp [hft2])
      · simp only [List.mem_singleton] at h1
        subst h1
        show k ≠ ft2.1
        simp only [List.map_cons, List.nodup_cons] at hnodup
        intro hk
        exact hnodup.1 (hk ▸ List.mem_map_of_mem Prod.fst hft2)
    · simp only [List.map_cons, List.nodup_cons] at hnodup
      exact hnodup.2

/-! ## Layout lookup: only the mapping, not its order, matters -/

theorem lookupType_eq_of_mem : ∀ (l : List (String × DType)) (k : String) (T : DType),
    (k, T) ∈ l → (l.map Prod.fst).Nodup → lookupType l k = T := by
  intro l
  induction l with
  | nil =>
    intro k T h _
    simp at h
  | cons p rest ih =>
    intro k T hmem hnodup
    obtain ⟨k2, T2⟩ := p
    simp only [List.map_cons, List.nodup_cons] at hnodup
    rcases List.mem_cons.mp hmem with h | h
    · injection h with h1 h2
      show (if k2 = k then T2 else lookupType rest k) = T
      rw [if_pos h1.symm]
      exact h2.symm
    · show (if k2 = k then T2 else lookupType rest k) = T
      have hk : k2 ≠ k := by
        intro he
        exact hnodup.1 (he ▸ List.mem_map_of_mem Prod.fst h)
      rw [if_neg hk]
      exact ih k T h hnodup.2

theorem lookupType_eq_of_not_mem : ∀ (l : List (String × DType)) (k : String),
    k ∉ l.map Prod.fst → lookupType l k = undefinedType := by
  intro l
  induction l with
  | nil => intro k _; rfl
  | cons p rest ih =>
    intro k h
    obtain ⟨k2, T2⟩ := p
    simp only [List.map_cons, List.mem_cons] at h
    push_neg at h
    show (if k2 = k then T2 else lookupType rest k) = undefinedType
    rw [if_neg (fun he => h.1 he.symm)]
    exact ih k h.2

theorem lookupType_perm (l1 l2 : List (String × DType)) (hperm : l1.Perm l2)
    (hnodup : (l1.map Prod.fst).Nodup) (k : String) :
    lookupType l1 k = lookupType l2 k := by
  have hnodup2 : (l2.map Prod.fst).Nodup := ((hperm.map Prod.fst).nodup_iff).mp hnodup
  by_cases hmem : k ∈ l1.map Prod.fst
  · obtain ⟨p, hp, hpk⟩ := List.mem_map.mp hmem
    have hp' : (k, p.2) ∈ l1 := by
      rw [show (k, p.2) = p from by rw [← hpk]]
      exact hp
    rw [lookupType_eq_of_mem l1 k p.2 hp' hnodup,
      lookupType_eq_of_mem l2 k p.2 (hperm.mem_iff.mp hp') hnodup2]
  · have hmem2 : k ∉ l2.map Prod.fst := fun h =>
      hmem ((hperm.map Prod.fst).mem_iff.mpr h)
    rw [lookupType_eq_of_not_mem l1 k hmem, lookupType_eq_of_not_mem l2 k hmem2]

/-! ## Further helper lemmas used by the claims -/

theorem varIntDecode_of_prefix (v : Nat) (hv : v < 2147483648) (m : Mem) (off : Nat)
    (hbytes : readBytes m off (varIntEncodeList (v : Int)).length = varIntEncodeList (v : Int)) :
    varIntDecode m off = ((v : Int), off + varIntSize (v : Int)) := by
  have hcore := varIntDecode_core 9 v 0 0 m off
    (lt_of_lt_of_le hv (by norm_num)) (by simpa using hv) (dvd_zero 7) (by norm_num)
    (by norm_num) hbytes
  norm_num at hcore
  show varIntDecodeGo m off 10 0 0 = ((v : Int), off + varIntSize (v : Int))
  rw [hcore]
  congr 1
  rw [varIntSize, varIntSizeF_eq_length]

theorem structBytes_length : ∀ (fields : List (String × DType)) (v : JSValue),
    (∀ ft ∈ fields, GoodType ft.2) →
    (structBytes fields v).length = computeSizeGo fields v := by
  intro fields
  induction fields with
  | nil => intro v _; rfl
  | cons ft rest ih =>
    intro v hg
    obtain ⟨k, T⟩ := ft
    have hT := hg (k, T) (by simp)
    show (structBytes ((k, T) :: rest) v).length = T.sizeOf (objGet v k) + computeSizeGo rest v
    have hsb : structBytes ((k, T) :: rest) v =
        T.encBytes (objGet v k) ++ structBytes rest v := by
      simp [structBytes]
    rw [hsb, List.length_append, (hT (objGet v k)).1, ih v (fun x hx => hg x (by simp [hx]))]

theorem structBytes_mem_lt : ∀ (fields : List (String × DType)) (v : JSValue),
    (∀ ft ∈ fields, GoodType ft.2) → ∀ b ∈ structBytes fields v, b < 256 := by
  intro fields
  induction fields with
  | nil => intro v _ b hb; simp [structBytes] at hb
  | cons ft rest ih =>
    intro v hg b hb
    obtain ⟨k, T⟩ := ft
    have hsb : structBytes ((k, T) :: rest) v =
        T.encBytes (objGet v k) ++ structBytes rest v := by
      simp [structBytes]
    rw [hsb] at hb
    rcases List.mem_append.mp hb with h | h
    · exact ((hg (k, T) (by simp)) (objGet v k)).2.1 b h
    · exact ih v (fun x hx => hg x (by simp [hx])) b h

theorem computeSizeGo_map (f : String → DType) (v : JSValue) : ∀ (keys : List String),
    computeSizeGo (keys.map fun k => (k, f k)) v =
      (keys.map fun k => (f k).sizeOf (objGet v k)).sum := by
  intro keys
  induction keys with
  | nil => rfl
  | cons k rest ih =>
    show (f k).sizeOf (objGet v k) + computeSizeGo (rest.map fun k => (k, f k)) v = _
    rw [ih]
    simp

theorem map_mod_eq_self : ∀ (s : List Nat), (∀ c ∈ s, c ≤ 255) →
    (s.map fun c => c % 256) = s := by
  intro s
  induction s with
  | nil => intro _; rfl
  | cons c cs ih =>
    intro h
    show c % 256 :: (cs.map fun c => c % 256) = c :: cs
    rw [Nat.mod_eq_of_lt (by have := h c (by simp); omega), ih (fun x hx => h x (by simp [hx]))]

theorem varIntDecodeGo_le (m : Mem) : ∀ (n off : Nat) (value : Int) (bitOffset : Nat),
    (varIntDecodeGo m off n value bitOffset).2 ≤ off + n := by
  intro n
  induction n with
  | zero => intro off value bitOffset; exact Nat.le_refl off
  | succ n ih =>
    intro off value bitOffset
    rw [varIntDecodeGo_step]
    by_cases h : getUint8 m off < 128
    · rw [if_pos h]
      split <;> omega
    · rw [if_neg h]
      have := ih (off + 1) (jsOr value (jsShl ((getUint8 m off &&& 127 : Nat) : Int) bitOffset))
        (bitOffset + 7)
      omega

theorem varIntDecodeGo_cap (m : Mem) : ∀ (k : Nat) (off : Nat) (value : Int) (b : Nat),
    (∀ j, j < k → 128 ≤ getUint8 m (off + j)) →
    getUint8 m (off + k) < 128 → 1 < getUint8 m (off + k) →
    varIntDecodeGo m off (k + 1) value b = (varIntAccum m off k value b, off + (k + 1)) := by
  intro k
  induction k with
  | zero =>
    intro off value b _ hfin hgt
    rw [varIntDecodeGo_step, if_pos (by simpa using hfin), if_pos ⟨rfl, by simpa using hgt⟩]
    rfl
  | succ k ih =>
    intro off value b hcont hfin hgt
    have h0 : 128 ≤ getUint8 m off := by
      have := hcont 0 (by omega)
      simpa using this
    rw [varIntDecodeGo_step, if_neg (not_lt.mpr h0)]
    have hsh : ∀ j, j < k → 128 ≤ getUint8 m (off + 1 + j) := by
      intro j hj
      have := hcont (j + 1) (by omega)
      rw [show off + (j + 1) = off + 1 + j from by omega] at this
      exact this
    have hfin' : getUint8 m (off + 1 + k) < 128 := by
      rw [show off + 1 + k = off + (k + 1) from by omega]
      exact hfin
    have hgt' : 1 < getUint8 m (off + 1 + k) := by
      rw [show off + 1 + k = off + (k + 1) from by omega]
      exact hgt
    rw [ih (off + 1) _ (b + 7) hsh hfin' hgt']
    show (varIntAccum m off (k + 1) value b, off + 1 + (k + 1)) =
      (varIntAccum m off (k + 1) value b, off + (k + 1 + 1))
    simp only [Prod.mk.injEq]
    exact ⟨trivial, by omega⟩

theorem jsStrOf_str (s : List Nat) : jsStrOf (.str s) = s := rfl

theorem strSizeOf (s : List Nat) :
    Data.Str.sizeOf (.str s) = varIntSize (s.length : Int) + s.length := rfl

/-! ## The claims -/

/-- C8: `VarInt.encode` produces exactly these byte sequences: 0 encodes to
[0x00]; 127 to [0x7F]; 128 to [0x80, 0x01]; 300 to [0xAC, 0x02]; 16384 to
[0x80, 0x80, 0x01] (shown for the emitted byte list, and at 300 also for the
bytes actually written into a fresh buffer together with the cursor
advance). -/
theorem claim_C8_varint_vectors :
    varIntEncodeList 0 = [0x00] ∧ varIntEncodeList 127 = [0x7F] ∧
    varIntEncodeList 128 = [0x80, 0x01] ∧ varIntEncodeList 300 = [0xAC, 0x02] ∧
    varIntEncodeList 16384 = [0x80, 0x80, 0x01] ∧
    readBytes (varIntEncodeSt zeroMem 0 300).1 0 2 = [0xAC, 0x02] ∧
    (varIntEncodeSt zeroMem 0 300).2 = 2 :=
  ⟨rfl, rfl, rfl, rfl, rfl, rfl, rfl⟩

/-- C3: encoding the packet definition with identifier 2, layout
`(name : Str, user : UInt8)` and key order `[name, user]` on the value
`(name := "ab", user := 5)` produces exactly the bytes
[0x02, 0x02, 0x61, 0x62, 0x05] with the cursor reset to 0, and decoding that
exact byte sequence against the same definition (the VarInt id first, then
the struct body) reproduces the value, consuming all five bytes. -/
theorem claim_C3_packet_framing :
    (mkPacketDefinition 2 [("name", Data.Str), ("user", Data.UInt8)] ["name", "user"]).create 0
        (.obj [("name", .str [0x61, 0x62]), ("user", .num 5)]) =
      ([0x02, 0x02, 0x61, 0x62, 0x05], 0) ∧
    varIntDecode (memOfBytes [0x02, 0x02, 0x61, 0x62, 0x05]) 0 = (2, 1) ∧
    StructDefinition.decode
        (mkStructDefinition [("name", Data.Str), ("user", Data.UInt8)] ["name", "user"])
        (memOfBytes [0x02, 0x02, 0x61, 0x62, 0x05]) 1 =
      (.obj [("name", .str [0x61, 0x62]), ("user", .num 5)], 5) :=
  ⟨rfl, rfl, rfl⟩

/-- C10 (implicit): because `VarInt.encode` and `VarInt.decode` use the
32-bit JavaScript shift and or operators, the round trip
`decode(encode(v)) = v` holds for every non-negative integer strictly below
`2^31`: encoding `v` into any buffer at any offset and decoding from the same
offset returns exactly `v` with the cursor advanced over the same bytes. -/
theorem claim_C10_varint_roundtrip_32bit (v : Nat) (hv : v < 2147483648)
    (m : Mem) (off : Nat) :
    varIntDecode (varIntEncodeSt m off (v : Int)).1 off =
      ((v : Int), (varIntEncodeSt m off (v : Int)).2) := by
  rw [varIntEncodeSt_eq]
  exact varIntRoundTrip v hv m off

/-- Witness for C10 at `v = 300`. -/
theorem claim_C10_witness :
    varIntDecode (varIntEncodeSt zeroMem 0 ((300 : Nat) : Int)).1 0 =
      (((300 : Nat) : Int), (varIntEncodeSt zeroMem 0 ((300 : Nat) : Int)).2) :=
  claim_C10_varint_roundtrip_32bit 300 (by norm_num) zeroMem 0

/-- C4 counterexample: at `v = 2^31` the implementation right-shifts through
`ToInt32`, so `VarInt.size` returns 2, while the number of mathematical
right-shifts by 7 needed to bring `2^31` below 0x80 is 4 (so the claimed size
would be 5), and the emitted bytes [0x80, 0x00] differ from the five bytes
the spec rule describes.  The claim as stated over every non-negative integer
is therefore false. -/
theorem claim_C4_counterexample :
    ¬ (varIntSize ((2147483648 : Nat) : Int) = specVarIntShiftCount 2147483648 + 1 ∧
       varIntEncodeList ((2147483648 : Nat) : Int) = specVarIntEncode 2147483648) := by
  intro h
  have h1 : varIntSize ((2147483648 : Nat) : Int) = 2 := rfl
  have h2 : specVarIntShiftCount 2147483648 = 4 := by decide
  have h3 := h.1
  rw [h1, h2] at h3
  norm_num at h3

/-- C4 amended: for every non-negative integer v strictly below `2^31`,
`VarInt.size(v)` equals the number of right-shifts by 7 bits required to
bring v below 0x80 plus one, `VarInt.encode` emits exactly the bytes
`(v AND 0x7f) OR 0x80` followed by the shifted remainder as the spec's loop
describes, and the number of bytes emitted equals `VarInt.size(v)`. -/
theorem claim_C4_amended (v : Nat) (hv : v < 2147483648) :
    varIntSize (v : Int) = specVarIntShiftCount v + 1 ∧
    varIntEncodeList (v : Int) = specVarIntEncode v ∧
    (varIntEncodeList (v : Int)).length = varIntSize (v : Int) := by
  obtain ⟨he, hs⟩ := varIntEncodeList_spec v hv
  exact ⟨hs, he, varIntEncodeList_length _⟩

/-- Witness for the amended C4 at `v = 300`. -/
theorem claim_C4_witness :
    varIntSize ((300 : Nat) : Int) = specVarIntShiftCount 300 + 1 ∧
    varIntEncodeList ((300 : Nat) : Int) = specVarIntEncode 300 ∧
    (varIntEncodeList ((300 : Nat) : Int)).length = varIntSize ((300 : Nat) : Int) :=
  claim_C4_amended 300 (by norm_num)

/-- C5: `VarInt.decode` reads at most 10 bytes (it never advances the cursor
by more than 10, so an 11th byte is never read, even if every byte has its
continuation bit set), and when the first nine bytes all carry the
continuation bit and the 10th is a final byte greater than 1, it terminates
returning only the value accumulated from the first nine bytes — the 10th
byte is not folded in.  Termination itself is inherent: the decoder is a
total function. -/
theorem claim_C5_decode_ten_byte_cap (m : Mem) (off : Nat) :
    (varIntDecode m off).2 ≤ off + 10 ∧
    ((∀ j, j < 9 → 128 ≤ getUint8 m (off + j)) → getUint8 m (off + 9) < 128 →
      1 < getUint8 m (off + 9) →
      varIntDecode m off = (varIntAccum m off 9 0 0, off + 10)) := by
  constructor
  · exact varIntDecodeGo_le m 10 off 0 0
  · intro hcont hfin hgt
    show varIntDecodeGo m off (9 + 1) 0 0 = (varIntAccum m off 9 0 0, off + 10)
    rw [varIntDecodeGo_cap m 9 off 0 0 hcont hfin hgt]

/-- Witness for C5: nine continuation bytes 0x82 followed by the final byte 2
in the 10th position. -/
theorem claim_C5_witness :
    (varIntDecode (memOfBytes [130, 130, 130, 130, 130, 130, 130, 130, 130, 2]) 0).2 ≤ 0 + 10 ∧
    varIntDecode (memOfBytes [130, 130, 130, 130, 130, 130, 130, 130, 130, 2]) 0 =
      (varIntAccum (memOfBytes [130, 130, 130, 130, 130, 130, 130, 130, 130, 2]) 0 9 0 0,
        0 + 10) :=
  ⟨(claim_C5_decode_ten_byte_cap (memOfBytes [130, 130, 130, 130, 130, 130, 130, 130, 130, 2]) 0).1,
   (claim_C5_decode_ten_byte_cap (memOfBytes [130, 130, 130, 130, 130, 130, 130, 130, 130, 2]) 0).2
     (by decide) (by decide) (by decide)⟩

set_option maxRecDepth 4000 in
/-- C9 counterexample: the claim quantifies over every string of code points
at most 255, but a string of length `2^31` (legal for JavaScript, whose
strings may have up to `2^53 - 1` code units) fails the round trip: the
VarInt length prefix is computed with the 32-bit shift, so the length `2^31`
is written as the bytes [0x80, 0x00], which decode back to length 0, and the
decoded string is empty rather than the original. -/
theorem claim_C9_counterexample :
    (∀ c ∈ List.replicate 2147483648 97, c ≤ 255) ∧
    (Data.Str.decode
        (Data.Str.encode zeroMem 0 (.str (List.replicate 2147483648 97))).1 0).1 ≠
      JSValue.str (List.replicate 2147483648 97) := by
  constructor
  · intro c hc
    rw [List.eq_of_mem_replicate hc]
    norm_num
  · set s := List.replicate 2147483648 97 with hs
    have hlen : s.length = 2147483648 := by rw [hs, List.length_replicate]
    have h1 : ∀ t : List Nat, Data.Str.encode zeroMem 0 (.str t) =
        writeSeq (varIntEncodeSt zeroMem 0 (t.length : Int)).1
          (varIntEncodeSt zeroMem 0 (t.length : Int)).2 t := fun t => rfl
    have h2 : varIntEncodeSt zeroMem 0 (s.length : Int) = (writeBytes zeroMem 0 [128, 0], 2) := by
      rw [hlen, varIntEncodeSt_eq,
        show varIntEncodeList ((2147483648 : Nat) : Int) = [128, 0] from rfl,
        show varIntSize ((2147483648 : Nat) : Int) = 2 from rfl]
    have h3 : (Data.Str.encode zeroMem 0 (.str s)).1 =
        writeBytes (writeBytes zeroMem 0 [128, 0]) 2 (s.map fun c => c % 256) := by
      rw [h1 s, h2, writeSeq_eq]
    set m2 := writeBytes (writeBytes zeroMem 0 [128, 0]) 2 (s.map fun c => c % 256) with hm2
    have hb0 : getUint8 m2 0 = 128 := by
      show (writeBytes (writeBytes zeroMem 0 [128, 0]) 2 (s.map fun c => c % 256)) 0 % 256 = 128
      rw [writeBytes_of_lt _ _ 2 (by omega)]
      rfl
    have hb1 : getUint8 m2 1 = 0 := by
      show (writeBytes (writeBytes zeroMem 0 [128, 0]) 2 (s.map fun c => c % 256)) 1 % 256 = 0
      rw [writeBytes_of_lt _ _ 2 (by omega)]
      rfl
    have h4 : varIntDecode m2 0 = (0, 2) := by
      show varIntDecodeGo m2 0 (9 + 1) 0 0 = (0, 2)
      rw [varIntDecodeGo_step, hb0, if_neg (by norm_num)]
      rw [show jsOr 0 (jsShl (((128 &&& 127 : Nat)) : Int) 0) = 0 from rfl]
      show varIntDecodeGo m2 1 (8 + 1) 0 7 = (0, 2)
      rw [varIntDecodeGo_step, hb1, if_pos (by norm_num), if_neg (by simp)]
      rw [show jsOr 0 (jsShl (((0 : Nat)) : Int) 7) = 0 from rfl]
    have h5 : byteArrayDecode m2 0 = ([], 2) := by
      show (readBytes m2 (varIntDecode m2 0).2 (varIntDecode m2 0).1.toNat,
        (varIntDecode m2 0).2 + (varIntDecode m2 0).1.toNat) = ([], 2)
      rw [h4]
      rfl
    have h6 : (Data.Str.decode m2 0).1 = JSValue.str [] := by
      show JSValue.str (byteArrayDecode m2 0).1 = JSValue.str []
      rw [h5]
    intro heq
    rw [h3] at heq
    rw [h6] at heq
    injection heq with h7
    have h8 := congrArg List.length h7
    rw [hlen] at h8
    simp at h8

/-- C9 amended: `Str.encode` writes a VarInt length prefix followed by one
byte per character holding that character's code point reduced mod 256 (code
points above 255 lose information), occupying `VarIntSize(length) + length`
bytes — and for every string whose code points are all at most 255 AND whose
length is below `2^31` (the range on which the VarInt length prefix is
faithful), `Str.decode(Str.encode(s)) = s`, consuming exactly the bytes
written. -/
theorem claim_C9_amended (s : List Nat) (m : Mem) (off : Nat)
    (hlen : s.length < 2147483648) :
    Data.Str.encode m off (.str s) =
      (writeBytes m off (varIntEncodeList (s.length : Int) ++ s.map fun c => c % 256),
        off + (varIntSize (s.length : Int) + s.length)) ∧
    ((∀ c ∈ s, c ≤ 255) →
      Data.Str.decode
          (writeBytes m off (varIntEncodeList (s.length : Int) ++ s.map fun c => c % 256)) off =
        (.str s, off + (varIntSize (s.length : Int) + s.length))) := by
  have hshape : Data.Str.encode m off (.str s) =
      (writeBytes m off (varIntEncodeList (s.length : Int) ++ s.map fun c => c % 256),
        off + (varIntSize (s.length : Int) + s.length)) := by
    have hG := (goodType_Str_full.1 (.str s)).2.2 m off
    rw [goodType_Str_full.2 (.str s), strSizeOf] at hG
    simp only [jsStrOf_str] at hG
    exact hG
  refine ⟨hshape, ?_⟩
  intro hc
  set A := varIntEncodeList (s.length : Int) with hA
  set B := s.map (fun c => c % 256) with hB
  have hAlen : A.length = varIntSize (s.length : Int) := varIntEncodeList_length _
  have hBlen : B.length = s.length := by rw [hB, List.length_map]
  have hsplit : writeBytes m off (A ++ B) =
      writeBytes (writeBytes m off A) (off + A.length) B := writeBytes_append A B m off
  have hpre : readBytes (writeBytes m off (A ++ B)) off A.length = A := by
    rw [hsplit]
    have hcongr : readBytes (writeBytes (writeBytes m off A) (off + A.length) B) off A.length =
        readBytes (writeBytes m off A) off A.length := by
      apply readBytes_congr
      intro j hj1 hj2
      unfold getUint8
      rw [writeBytes_of_lt B _ (off + A.length) (by omega)]
    rw [hcongr]
    exact readBytes_writeBytes A m off (varIntEncodeList_mem_lt _)
  have hdec : varIntDecode (writeBytes m off (A ++ B)) off =
      ((s.length : Int), off + varIntSize (s.length : Int)) :=
    varIntDecode_of_prefix s.length hlen _ off (by rw [hA] at hpre ⊢; exact hAlen ▸ hpre)
  have hBbytes : readBytes (writeBytes m off (A ++ B)) (off + A.length) B.length = B := by
    rw [hsplit]
    apply readBytes_writeBytes
    intro b hb
    rw [hB] at hb
    obtain ⟨c, _, hcb⟩ := List.mem_map.mp hb
    omega
  have h5 : byteArrayDecode (writeBytes m off (A ++ B)) off =
      (s, off + varIntSize (s.length : Int) + s.length) := by
    show (readBytes _ (varIntDecode (writeBytes m off (A ++ B)) off).2
        (varIntDecode (writeBytes m off (A ++ B)) off).1.toNat,
      (varIntDecode (writeBytes m off (A ++ B)) off).2 +
        (varIntDecode (writeBytes m off (A ++ B)) off).1.toNat) = _
    rw [hdec]
    simp only [Int.toNat_natCast, Prod.mk.injEq]
    constructor
    · rw [show off + varIntSize (s.length : Int) = off + A.length from by rw [hAlen],
        show s.length = B.length from hBlen.symm, hBbytes, hB]
      exact map_mod_eq_self s hc
    · trivial
  show (JSValue.str (byteArrayDecode (writeBytes m off (A ++ B)) off).1,
    (byteArrayDecode (writeBytes m off (A ++ B)) off).2) = _
  rw [h5]
  simp only [Prod.mk.injEq]
  exact ⟨trivial, by omega⟩

/-- Witness for the amended C9 on the two-character string "hi" written at
offset 0 of a fresh buffer. -/
theorem claim_C9_witness :
    (Data.Str.encode zeroMem 0 (.str [104, 105]) =
      (writeBytes zeroMem 0
          (varIntEncodeList (([104, 105] : List Nat).length : Int) ++
            ([104, 105] : List Nat).map fun c => c % 256),
        0 + (varIntSize (([104, 105] : List Nat).length : Int) + ([104, 105] : List Nat).length))) ∧
    Data.Str.decode
        (writeBytes zeroMem 0
          (varIntEncodeList (([104, 105] : List Nat).length : Int) ++
            ([104, 105] : List Nat).map fun c => c % 256)) 0 =
      (.str [104, 105],
        0 + (varIntSize (([104, 105] : List Nat).length : Int) + ([104, 105] : List Nat).length)) :=
  ⟨(claim_C9_amended [104, 105] zeroMem 0 (by norm_num)).1,
   (claim_C9_amended [104, 105] zeroMem 0 (by norm_num)).2 (by decide)⟩

/-- C6: for every packet definition whose field codecs obey the cursor/size
discipline of spec section 4.1 (`GoodType`, proved above for the library's
codecs) and every value, `create` — called with a fresh/reset write tracker,
the steady state its own trailing `reset()` guarantees — returns a buffer of
exactly `VarIntSize(id) + computeSize(data)` bytes whose content is the
VarInt-encoded identifier followed by the field-encoded body, and the write
tracker is reset to offset 0 before returning. -/
theorem claim_C6_create (p : PacketDefinition) (data : JSValue)
    (hg : ∀ ft ∈ p.fields, GoodType ft.2) :
    (p.create 0 data).1.length = varIntSize p.id + computeSizeGo p.fields data ∧
    (p.create 0 data).1 = varIntEncodeList p.id ++ structBytes p.fields data ∧
    (p.create 0 data).2 = 0 := by
  have hq1 : (varIntEncodeSt zeroMem 0 p.id).1 =
      writeBytes zeroMem 0 (varIntEncodeList p.id) := by
    rw [varIntEncodeSt_eq]
  have hq2 : (varIntEncodeSt zeroMem 0 p.id).2 = 0 + varIntSize p.id := by
    rw [varIntEncodeSt_eq]
  have hr := structEncodeGo_eq p.fields (writeBytes zeroMem 0 (varIntEncodeList p.id))
    (0 + varIntSize p.id) data hg
  have hm1 : (structEncodeGo p.fields (varIntEncodeSt zeroMem 0 p.id).1
      (varIntEncodeSt zeroMem 0 p.id).2 data).1 =
      writeBytes (writeBytes zeroMem 0 (varIntEncodeList p.id)) (0 + varIntSize p.id)
        (structBytes p.fields data) := by
    rw [hq1, hq2, hr]
  have hcr1 : (p.create 0 data).1 =
      readBytes (structEncodeGo p.fields (varIntEncodeSt zeroMem 0 p.id).1
        (varIntEncodeSt zeroMem 0 p.id).2 data).1 0
        (varIntSize p.id + computeSizeGo p.fields data) := rfl
  have hsplit : (p.create 0 data).1 =
      readBytes (writeBytes (writeBytes zeroMem 0 (varIntEncodeList p.id))
          (0 + varIntSize p.id) (structBytes p.fields data)) 0 (varIntSize p.id) ++
      readBytes (writeBytes (writeBytes zeroMem 0 (varIntEncodeList p.id))
          (0 + varIntSize p.id) (structBytes p.fields data)) (0 + varIntSize p.id)
        (computeSizeGo p.fields data) := by
    rw [hcr1, hm1, readBytes_split]
  have hfirst : readBytes (writeBytes (writeBytes zeroMem 0 (varIntEncodeList p.id))
      (0 + varIntSize p.id) (structBytes p.fields data)) 0 (varIntSize p.id) =
      varIntEncodeList p.id := by
    have hcongr : readBytes (writeBytes (writeBytes zeroMem 0 (varIntEncodeList p.id))
        (0 + varIntSize p.id) (structBytes p.fields data)) 0 (varIntSize p.id) =
        readBytes (writeBytes zeroMem 0 (varIntEncodeList p.id)) 0 (varIntSize p.id) := by
      apply readBytes_congr
      intro j _ hj2
      unfold getUint8
      rw [writeBytes_of_lt _ _ (0 + varIntSize p.id) (by omega)]
    rw [hcongr, ← varIntEncodeList_length p.id]
    exact readBytes_writeBytes _ zeroMem 0 (varIntEncodeList_mem_lt _)
  have hsecond : readBytes (writeBytes (writeBytes zeroMem 0 (varIntEncodeList p.id))
      (0 + varIntSize p.id) (structBytes p.fields data)) (0 + varIntSize p.id)
      (computeSizeGo p.fields data) = structBytes p.fields data := by
    rw [← structBytes_length p.fields data hg]
    exact readBytes_writeBytes _ _ _ (structBytes_mem_lt p.fields data hg)
  refine ⟨?_, ?_, rfl⟩
  · rw [hcr1, readBytes_length]
  · rw [hsplit, hfirst, hsecond]

/-- Witness for C6 on the packet definition of spec section 8 (id 2, a string
field and a byte field). -/
theorem claim_C6_witness :
    ((mkPacketDefinition 2 [("name", Data.Str), ("user", Data.UInt8)]
        ["name", "user"]).create 0 (.obj [("name", .str [0x61, 0x62]), ("user", .num 5)])).1.length =
      varIntSize (mkPacketDefinition 2 [("name", Data.Str), ("user", Data.UInt8)]
          ["name", "user"]).id +
        computeSizeGo (mkPacketDefinition 2 [("name", Data.Str), ("user", Data.UInt8)]
          ["name", "user"]).fields (.obj [("name", .str [0x61, 0x62]), ("user", .num 5)]) ∧
    ((mkPacketDefinition 2 [("name", Data.Str), ("user", Data.UInt8)]
        ["name", "user"]).create 0 (.obj [("name", .str [0x61, 0x62]), ("user", .num 5)])).1 =
      varIntEncodeList (mkPacketDefinition 2 [("name", Data.Str), ("user", Data.UInt8)]
          ["name", "user"]).id ++
        structBytes (mkPacketDefinition 2 [("name", Data.Str), ("user", Data.UInt8)]
          ["name", "user"]).fields (.obj [("name", .str [0x61, 0x62]), ("user", .num 5)]) ∧
    ((mkPacketDefinition 2 [("name", Data.Str), ("user", Data.UInt8)]
        ["name", "user"]).create 0 (.obj [("name", .str [0x61, 0x62]), ("user", .num 5)])).2 = 0 :=
  claim_C6_create
    (mkPacketDefinition 2 [("name", Data.Str), ("user", Data.UInt8)] ["name", "user"])
    (.obj [("name", .str [0x61, 0x62]), ("user", .num 5)])
    (by
      intro ft hft
      rcases List.mem_cons.mp hft with h | h2
      · rw [h]
        exact goodType_Str
      · rcases List.mem_cons.mp h2 with h | h3
        · rw [h]
          exact goodType_UInt8
        · simp at h3)

/-- C7: for every layout and explicit key order, the compiled definition is
determined by the key order and the layout's key-to-codec mapping alone:
(1) two layouts that are permutations of each other compile, with the same
keys, to the same definition — hence identical size/encode/decode behaviour;
(2) `computeSize` sums the per-field sizes over the key sequence;
(3) `encode` writes the per-field byte sequences contiguously, with no
delimiters, in exactly the order of the key sequence (for codecs obeying the
spec's cursor discipline); and (4) `decode` reads the fields in that same
key order, assembling an object keyed by field name. -/
theorem claim_C7_field_order (struct1 struct2 : List (String × DType)) (keys : List String)
    (v : JSValue) (m : Mem) (off : Nat)
    (hperm : struct1.Perm struct2) (hnodup : (struct1.map Prod.fst).Nodup)
    (hkeys : keys.Nodup)
    (hg : ∀ k ∈ keys, GoodType (lookupType struct1 k)) :
    mkStructDefinition struct1 keys = mkStructDefinition struct2 keys ∧
    (mkStructDefinition struct1 keys).computeSize v =
      (keys.map fun k => (lookupType struct1 k).sizeOf (objGet v k)).sum ∧
    (mkStructDefinition struct1 keys).encode m off v =
      (writeBytes m off
          ((keys.map fun k => (lookupType struct1 k).encBytes (objGet v k)).flatten),
        off + (mkStructDefinition struct1 keys).computeSize v) ∧
    (mkStructDefinition struct1 keys).decode m off =
      (JSValue.obj (fieldsDecodeList m (mkStructDefinition struct1 keys).fields off).1,
        (fieldsDecodeList m (mkStructDefinition struct1 keys).fields off).2) := by
  have hfields : (keys.map fun k => (k, lookupType struct1 k)) =
      keys.map fun k => (k, lookupType struct2 k) :=
    List.map_congr_left fun k _ => by rw [lookupType_perm struct1 struct2 hperm hnodup k]
  have hgf : ∀ ft ∈ keys.map fun k => (k, lookupType struct1 k), GoodType ft.2 := by
    intro ft hft
    obtain ⟨k, hk, rfl⟩ := List.mem_map.mp hft
    exact hg k hk
  refine ⟨?_, ?_, ?_, ?_⟩
  · show StructDefinition.mk (keys.map fun k => (k, lookupType struct1 k)) =
      StructDefinition.mk (keys.map fun k => (k, lookupType struct2 k))
    rw [hfields]
  · exact computeSizeGo_map (lookupType struct1) v keys
  · show structEncodeGo (keys.map fun k => (k, lookupType struct1 k)) m off v = _
    rw [structEncodeGo_eq _ m off v hgf]
    have hsb : structBytes (keys.map fun k => (k, lookupType struct1 k)) v =
        (keys.map fun k => (lookupType struct1 k).encBytes (objGet v k)).flatten := by
      simp only [structBytes, List.map_map]
      rfl
    rw [hsb]
    rfl
  · have hnodupf : ((keys.map fun k => (k, lookupType struct1 k)).map Prod.fst).Nodup := by
      have h0 : (keys.map fun k => (k, lookupType struct1 k)).map Prod.fst = keys := by
        rw [List.map_map]
        exact List.map_id keys
      rw [h0]
      exact hkeys
    show (JSValue.obj (structDecodeGo m (keys.map fun k => (k, lookupType struct1 k)) [] off).1,
      (structDecodeGo m (keys.map fun k => (k, lookupType struct1 k)) [] off).2) = _
    rw [structDecodeGo_eq (keys.map fun k => (k, lookupType struct1 k)) m [] off
      (by intro p hp; simp at hp) hnodupf]
    rw [List.nil_append]
    rfl

/-- Witness for C7: the layouts `[a: UInt8, b: Str]` and `[b: Str, a: UInt8]`
(permutations of each other) with the key order `[a, b]`. -/
theorem claim_C7_witness :
    mkStructDefinition [("a", Data.UInt8), ("b", Data.Str)] ["a", "b"] =
      mkStructDefinition [("b", Data.Str), ("a", Data.UInt8)] ["a", "b"] ∧
    (mkStructDefinition [("a", Data.UInt8), ("b", Data.Str)] ["a", "b"]).computeSize
        (.obj [("a", .num 1), ("b", .str [104])]) =
      ((["a", "b"] : List String).map fun k =>
        (lookupType [("a", Data.UInt8), ("b", Data.Str)] k).sizeOf
          (objGet (.obj [("a", .num 1), ("b", .str [104])]) k)).sum ∧
    (mkStructDefinition [("a", Data.UInt8), ("b", Data.Str)] ["a", "b"]).encode zeroMem 0
        (.obj [("a", .num 1), ("b", .str [104])]) =
      (writeBytes zeroMem 0
          ((["a", "b"] : List String).map fun k =>
            (lookupType [("a", Data.UInt8), ("b", Data.Str)] k).encBytes
              (objGet (.obj [("a", .num 1), ("b", .str [104])]) k)).flatten,
        0 + (mkStructDefinition [("a", Data.UInt8), ("b", Data.Str)] ["a", "b"]).computeSize
          (.obj [("a", .num 1), ("b", .str [104])])) ∧
    (mkStructDefinition [("a", Data.UInt8), ("b", Data.Str)] ["a", "b"]).decode zeroMem 0 =
      (JSValue.obj (fieldsDecodeList zeroMem
          (mkStructDefinition [("a", Data.UInt8), ("b", Data.Str)] ["a", "b"]).fields 0).1,
        (fieldsDecodeList zeroMem
          (mkStructDefinition [("a", Data.UInt8), ("b", Data.Str)] ["a", "b"]).fields 0).2) :=
  claim_C7_field_order [("a", Data.UInt8), ("b", Data.Str)] [("b", Data.Str), ("a", Data.UInt8)]
    ["a", "b"] (.obj [("a", .num 1), ("b", .str [104])]) zeroMem 0
    (List.Perm.swap ("b", Data.Str) ("a", Data.UInt8) [])
    (by simp)
    (by simp)
    (by
      intro k hk
      rcases List.mem_cons.mp hk with rfl | h2
      · exact goodType_UInt8
      · rcases List.mem_cons.mp h2 with rfl | h3
        · exact goodType_Str
        · simp at h3)

/-- C1 is a code bug in the `Float32` codec (src/data.ts line 124): its
encoder is `setFloat64`, not `setFloat32`, contradicting the codec's own
comment, declared size 4, and `getFloat32` decoder.  Demonstrated at
`v = 1.0` (binary64 bits 0x3FF0000000000000): encoding writes the binary64
pattern `3F F0 00 00 00 00 00 00`, and decoding reads back the first four
bytes `3F F0 00 00` as a binary32 value, which widens to 1.875 (binary64
bits 0x3FFE000000000000) — so `decode(encode(1.0))` is 1.875, not 1.0, and
the round-trip claim fails for `Float32` although 1.0 is well inside its
declared range. -/
theorem claim_C1_float32_roundtrip_fails :
    (Data.Float32.decode (Data.Float32.encode zeroMem 0 (.float 0x3FF0000000000000)).1 0).1 =
      JSValue.float 0x3FFE000000000000 ∧
    (Data.Float32.decode (Data.Float32.encode zeroMem 0 (.float 0x3FF0000000000000)).1 0).1 ≠
      JSValue.float 0x3FF0000000000000 := by
  refine ⟨rfl, ?_⟩
  intro h
  rw [show (Data.Float32.decode (Data.Float32.encode zeroMem 0
      (.float 0x3FF0000000000000)).1 0).1 = JSValue.float 0x3FFE000000000000 from rfl] at h
  injection h with h2
  revert h2
  decide

/-- C2 is violated by the same `Float32` slip: the codec declares size 4 and
advances the cursor by 4 during encode, but `setFloat64` writes 8 bytes.  At
`v = 1.1` (binary64 bits 0x3FF199999999999A) the encode into a fresh buffer
advances the cursor from 0 to 4 = size, yet bytes 4..7 — beyond the declared
size — now hold `99 99 99 9A` instead of their allocated zeros: the bytes
written do not equal the declared size (and on an exactly-sized 4-byte
buffer this write throws a RangeError in JavaScript).  Every other codec of
the library obeys the claim. -/
theorem claim_C2_float32_writes_past_size :
    Data.Float32.sizeOf (.float 0x3FF199999999999A) = 4 ∧
    (Data.Float32.encode zeroMem 0 (.float 0x3FF199999999999A)).2 = 0 + 4 ∧
    readBytes (Data.Float32.encode zeroMem 0 (.float 0x3FF199999999999A)).1 0 8 =
      [0x3F, 0xF1, 0x99, 0x99, 0x99, 0x99, 0x99, 0x9A] ∧
    readBytes (Data.Float32.encode zeroMem 0 (.float 0x3FF199999999999A)).1 4 4 ≠
      readBytes zeroMem 4 4 := by
  refine ⟨rfl, rfl, rfl, ?_⟩
  intro h
  rw [show readBytes (Data.Float32.encode zeroMem 0 (.float 0x3FF199999999999A)).1 4 4 =
    [0x99, 0x99, 0x99, 0x9A] from rfl] at h
  revert h
  decide
